import Mathlib

/-!
Shallow embedding of the `espikey` key-value store (an educational LevelDB-style
engine written in Rust) and verification of its specification claims.

Bytes are modelled as `Nat` (a concrete byte is a value `< 256`); byte strings
are `List Nat`.  Fallible Rust code returning `Result<T, Status>` is modelled
with `Except Status T`; a Rust panic (index out of bounds, failed `assert!`) is
modelled with `Option` (`none` = panic).  Machine integers are `Nat` with
explicit `% 2^w` where the Rust code can overflow or truncate.
-/

namespace Espikey

/-- `Status` error type from `src/lib.rs` (the `std::io::Error` payload of
`IOError` is not modelled; errors are compared by kind, as the code's
`PartialEq` instance does). -/
inductive Status where
  | NotFound
  | Corruption
  | NotSupported
  | InvalidArgument
  | IOError
deriving DecidableEq, Repr

/-! ## Fixed-width little-endian codecs (`src/lib.rs`) -/

/-- Little-endian serialization of a 16-bit value (`u16::to_le_bytes`). -/
def le16 (n : Nat) : List Nat := [n % 256, n / 256 % 256]

/-- Little-endian serialization of a 32-bit value (`u32::to_le_bytes`). -/
def le32 (n : Nat) : List Nat :=
  [n % 256, n / 256 % 256, n / 2 ^ 16 % 256, n / 2 ^ 24 % 256]

/-- Little-endian serialization of a 64-bit value (`u64::to_le_bytes`). -/
def le64 (n : Nat) : List Nat :=
  [n % 256, n / 2 ^ 8 % 256, n / 2 ^ 16 % 256, n / 2 ^ 24 % 256,
   n / 2 ^ 32 % 256, n / 2 ^ 40 % 256, n / 2 ^ 48 % 256, n / 2 ^ 56 % 256]

/-- `decode_fixed32` from `src/lib.rs`: `u32::from_le_bytes` of the first four
bytes (the code asserts `4 ≤ data.len()`; out-of-range reads default to 0
here, which never fires at verified call sites). -/
def decode_fixed32 (data : List Nat) : Nat :=
  data.getD 0 0 + 256 * data.getD 1 0 + 2 ^ 16 * data.getD 2 0 + 2 ^ 24 * data.getD 3 0

/-- `decode_fixed64` from `src/lib.rs`. -/
def decode_fixed64 (data : List Nat) : Nat :=
  data.getD 0 0 + 2 ^ 8 * data.getD 1 0 + 2 ^ 16 * data.getD 2 0 + 2 ^ 24 * data.getD 3 0 +
  2 ^ 32 * data.getD 4 0 + 2 ^ 40 * data.getD 5 0 + 2 ^ 48 * data.getD 6 0 +
  2 ^ 56 * data.getD 7 0

theorem decode_le16 (n : Nat) (hn : n < 2 ^ 16) (rest : List Nat) :
    (le16 n ++ rest).getD 0 0 + 256 * (le16 n ++ rest).getD 1 0 = n := by
  simp only [le16, List.cons_append, List.getD_cons_zero, List.getD_cons_succ]
  omega

theorem decode_fixed32_le32 (n : Nat) (hn : n < 2 ^ 32) (rest : List Nat) :
    decode_fixed32 (le32 n ++ rest) = n := by
  simp only [decode_fixed32, le32, List.cons_append, List.getD_cons_zero, List.getD_cons_succ]
  omega

theorem decode_fixed64_le64 (n : Nat) (hn : n < 2 ^ 64) (rest : List Nat) :
    decode_fixed64 (le64 n ++ rest) = n := by
  simp only [decode_fixed64, le64, List.cons_append, List.getD_cons_zero, List.getD_cons_succ]
  omega

/-! ## CRC-32 (`crc32fast::hash`, IEEE polynomial, reflected) and CRC-32C
(Castagnoli polynomial, referenced by the specification). -/

/-- One bit step of reflected CRC-32 with the given (reflected) polynomial. -/
def crcRound (poly c : Nat) : Nat := if c % 2 = 1 then (c / 2) ^^^ poly else c / 2

/-- Fold one input byte into the running CRC state. -/
def crcByte (poly c b : Nat) : Nat :=
  (List.range 8).foldl (fun acc _ => crcRound poly acc) (c ^^^ b % 256)

/-- Generic reflected CRC-32 with init/xorout `0xFFFFFFFF`. -/
def crcWith (poly : Nat) (data : List Nat) : Nat :=
  (data.foldl (crcByte poly) 0xFFFFFFFF) ^^^ 0xFFFFFFFF

/-- CRC-32 as computed by `crc32fast::hash` (IEEE polynomial `0xEDB88320`),
which `Writer::write` in `src/log.rs` uses for the record checksum. -/
def crc32 (data : List Nat) : Nat := crcWith 0xEDB88320 data

/-- CRC-32C (Castagnoli polynomial `0x82F63B78`), the checksum named by the
specification ("CRC-32C per fragment"); the source does not use it. -/
def crc32c (data : List Nat) : Nat := crcWith 0x82F63B78 data

/-! ## 32-bit varint codec (`src/lib.rs`) -/

/-- `put_varint32` from `src/lib.rs`: base-128 little-endian groups, MSB set on
every byte except the last.  The do-while loop is recursion on `value >> 7`. -/
def put_varint32 (v : Nat) : List Nat :=
  if v < 128 then [v] else (v % 128 + 128) :: put_varint32 (v / 128)

/-- Loop of `decode_varint32` from `src/lib.rs`, with the panics made explicit:
`buf[offset]` out of bounds is a panic (`none`), and shifting a `u32` by
`shift ≥ 32` is an arithmetic-overflow panic (`none`, debug semantics).  For
`shift < 32` the shifted group is truncated to 32 bits exactly as the `u32`
shift does; there is no failure path returning `Status`. -/
def decode_varint32_loop (buf : List Nat) (value shift offset : Nat) : Option (Nat × Nat) :=
  if buf.length ≤ offset then none
  else
    let byte := buf.getD offset 0
    if 32 ≤ shift then none
    else
      let value' := value ||| (byte % 128 * 2 ^ shift) % 2 ^ 32
      if byte % 256 / 128 = 1 then
        decode_varint32_loop buf value' (shift + 7) (offset + 1)
      else
        some (value', offset + 1)
termination_by buf.length - offset
decreasing_by omega

/-- `decode_varint32` from `src/lib.rs` (`none` models a panic). -/
def decode_varint32 (buf : List Nat) : Option (Nat × Nat) :=
  decode_varint32_loop buf 0 0 0

theorem lor_add_of_lt {a b s : Nat} (h : a < 2 ^ s) : a ||| b * 2 ^ s = a + b * 2 ^ s := by
  rw [Nat.lor_comm, Nat.mul_comm b, ← Nat.mul_add_lt_is_or h, Nat.add_comm]

theorem decode_varint32_loop_put (v : Nat) :
    ∀ value shift offset buf rest, buf.drop offset = put_varint32 v ++ rest →
    shift < 32 → v * 2 ^ shift < 2 ^ 32 → value < 2 ^ shift →
    decode_varint32_loop buf value shift offset =
      some (value + v * 2 ^ shift, offset + (put_varint32 v).length) := by
  induction v using Nat.strong_induction_on with
  | _ v ih =>
    intro value shift offset buf rest hdrop hshift hbound hvalue
    have hlen : offset < buf.length := by
      have := congrArg List.length hdrop
      simp only [List.length_drop, List.length_append] at this
      have : 1 ≤ (put_varint32 v).length := by
        rw [put_varint32]; split <;> simp
      omega
    have hbyte : buf.getD offset 0 = (put_varint32 v ++ rest).getD 0 0 := by
      rw [List.getD_eq_getElem?_getD, List.getD_eq_getElem?_getD, ← hdrop,
        List.getElem?_drop, Nat.add_zero]
    by_cases hv : v < 128
    · rw [put_varint32, if_pos hv] at hdrop hbyte ⊢
      simp only [List.cons_append, List.getD_cons_zero] at hbyte
      rw [decode_varint32_loop]
      have hmod : v % 128 = v := Nat.mod_eq_of_lt hv
      have h256 : v % 256 = v := Nat.mod_eq_of_lt (by omega)
      have htrunc : v * 2 ^ shift % 2 ^ 32 = v * 2 ^ shift := Nat.mod_eq_of_lt hbound
      rw [if_neg (by omega)]
      simp only [hbyte, hmod, h256, htrunc]
      rw [if_neg (by omega : ¬ 32 ≤ shift), if_neg (by omega : ¬ v / 128 = 1),
        lor_add_of_lt hvalue]
      simp
    · rw [put_varint32, if_neg hv] at hdrop hbyte ⊢
      simp only [List.cons_append, List.getD_cons_zero] at hbyte
      rw [decode_varint32_loop]
      have hb256 : (v % 128 + 128) % 256 = v % 128 + 128 :=
        Nat.mod_eq_of_lt (by have := Nat.mod_lt v (y := 128) (by omega); omega)
      have hb128 : (v % 128 + 128) % 128 = v % 128 := by omega
      have hfrag : v % 128 * 2 ^ shift < 2 ^ 32 := by
        calc v % 128 * 2 ^ shift ≤ v * 2 ^ shift :=
              Nat.mul_le_mul_right _ (Nat.mod_le v 128)
          _ < 2 ^ 32 := hbound
      have htrunc : v % 128 * 2 ^ shift % 2 ^ 32 = v % 128 * 2 ^ shift :=
        Nat.mod_eq_of_lt hfrag
      rw [if_neg (by omega)]
      simp only [hbyte, hb256, hb128, htrunc]
      rw [if_neg (by omega : ¬ 32 ≤ shift),
        if_pos (by omega : (v % 128 + 128) / 128 = 1), lor_add_of_lt hvalue]
      have hshift7 : shift + 7 < 32 := by
        have h1 : 2 ^ (shift + 7) ≤ v * 2 ^ shift := by
          rw [Nat.pow_add]
          calc 2 ^ shift * 2 ^ 7 = 2 ^ 7 * 2 ^ shift := Nat.mul_comm _ _
            _ ≤ v * 2 ^ shift := Nat.mul_le_mul_right _ (by omega)
        have h2 : 2 ^ (shift + 7) < 2 ^ 32 := Nat.lt_of_le_of_lt h1 hbound
        exact (Nat.pow_lt_pow_iff_right (by omega)).1 h2
      have hdrop' : buf.drop (offset + 1) = put_varint32 (v / 128) ++ rest := by
        have h1 : buf.drop (offset + 1) = (buf.drop offset).drop 1 := by
          rw [List.drop_drop, Nat.add_comm]
        rw [h1, hdrop]
        simp
      have hbound' : v / 128 * 2 ^ (shift + 7) < 2 ^ 32 := by
        calc v / 128 * 2 ^ (shift + 7) = v / 128 * (2 ^ shift * 2 ^ 7) := by rw [Nat.pow_add]
          _ = v / 128 * 2 ^ 7 * 2 ^ shift := by ring
          _ ≤ v * 2 ^ shift := Nat.mul_le_mul_right _ (by omega)
          _ < 2 ^ 32 := hbound
      have hvalue' : value + v % 128 * 2 ^ shift < 2 ^ (shift + 7) := by
        have hm : v % 128 < 128 := Nat.mod_lt v (by omega)
        calc value + v % 128 * 2 ^ shift < 2 ^ shift + 127 * 2 ^ shift := by
              have : v % 128 * 2 ^ shift ≤ 127 * 2 ^ shift :=
                Nat.mul_le_mul_right _ (by omega)
              omega
          _ = 2 ^ (shift + 7) := by rw [Nat.pow_add]; ring
      rw [ih (v / 128) (Nat.div_lt_self (by omega) (by omega)) _ _ _ _ rest hdrop' hshift7
        hbound' hvalue']
      simp only [Option.some.injEq, Prod.mk.injEq, List.length_cons]
      refine ⟨?_, by omega⟩
      rw [Nat.pow_add]
      have hvdm : v % 128 + 128 * (v / 128) = v := by omega
      calc value + v % 128 * 2 ^ shift + v / 128 * (2 ^ shift * 2 ^ 7)
          = value + (v % 128 + 128 * (v / 128)) * 2 ^ shift := by ring
        _ = value + v * 2 ^ shift := by rw [hvdm]

/-- C7 (counterexample): on the one-byte input `[0x80]` — a byte with its MSB
set and nothing after it — `decode_varint32` from `src/lib.rs` panics
(out-of-bounds index `buf[1]`, modelled as `none`): it neither returns a value
nor fails with a corruption error, refuting the claim that the decoder is
total with corruption-error reporting. -/
theorem c7_decode_varint32_counterexample : decode_varint32 [128] = none := by
  rw [decode_varint32, decode_varint32_loop.eq_def]
  norm_num
  rw [decode_varint32_loop.eq_def]
  norm_num

/-- C7 (amended): `decode_varint32` correctly inverts `put_varint32` for every
32-bit value: on input `put_varint32 v ++ rest` it returns `v` together with
the number of bytes consumed.  (On inputs with no terminating byte it panics
instead of reporting corruption — see the counterexample — and a 5-byte group
sequence whose value exceeds 32 bits is silently truncated by the `u32`
shift.) -/
theorem c7_decode_varint32_roundtrip (v : Nat) (hv : v < 2 ^ 32) (rest : List Nat) :
    decode_varint32 (put_varint32 v ++ rest) = some (v, (put_varint32 v).length) := by
  have := decode_varint32_loop_put v 0 0 0 (put_varint32 v ++ rest) rest (by simp)
    (by omega) (by simpa using hv) (by omega)
  simpa [decode_varint32] using this

/-- C7 (witness): the amended round-trip theorem evaluated at `v = 300`. -/
theorem c7_decode_varint32_roundtrip_witness :
    300 < 2 ^ 32 ∧
      decode_varint32 (put_varint32 300 ++ [7]) = some (300, (put_varint32 300).length) :=
  ⟨by norm_num, c7_decode_varint32_roundtrip 300 (by norm_num) [7]⟩

/-! ## Write-ahead log (`src/log.rs`) -/

/-- `BLOCK_SIZE` from `src/log.rs`. -/
def blockSize : Nat := 32768

/-- `HEADER_SIZE` from `src/log.rs`. -/
def headerSize : Nat := 7

/-- `Writer::write` from `src/log.rs`: the bytes appended for one physical
fragment — the packed `WalHeader { checksum: u32, length: u16, record_type:
u8 }` (little-endian fields, in declaration order) followed by the fragment
payload.  The checksum is `crc32fast::hash(message)`, i.e. `crc32` over the
payload bytes only. -/
def writeFrame (ty : Nat) (message : List Nat) : List Nat :=
  le32 (crc32 message) ++ le16 message.length ++ [ty] ++ message

/-- Block-tail padding written by one iteration of `Writer::append` when the
remaining space `BLOCK_SIZE - block_offset` is below the header size. -/
def padOf (B : Nat) : List Nat :=
  if blockSize - B < headerSize then List.replicate (blockSize - B) 0 else []

/-- The effective block offset of one iteration of `Writer::append` (0 after a
tail reset, otherwise unchanged). -/
def offOf (B : Nat) : Nat := if blockSize - B < headerSize then 0 else B

/-- `available` in `Writer::append`: data capacity left in the current block. -/
def availOf (B : Nat) : Nat := blockSize - (offOf B + headerSize)

/-- The do-while loop of `Writer::append` from `src/log.rs`: starting at block
offset `B` with remaining message `msg` (`first` = the loop's `begin` flag),
returns the bytes written (trailer padding plus fragment frames) and the
final block offset.  Record types: Full=1, First=2, Middle=3, Last=4. -/
def appendLoop (B : Nat) (msg : List Nat) (first : Bool) : List Nat × Nat :=
  if msg.length ≤ availOf B then
    (padOf B ++ writeFrame (if first then 1 else 4) msg, offOf B + headerSize + msg.length)
  else
    (padOf B ++ writeFrame (if first then 2 else 3) (msg.take (availOf B)) ++
        (appendLoop (offOf B + headerSize + availOf B) (msg.drop (availOf B)) false).1,
      (appendLoop (offOf B + headerSize + availOf B) (msg.drop (availOf B)) false).2)
termination_by 2 * msg.length + (if B = blockSize - headerSize then 1 else 0)
decreasing_by
  simp only [List.length_drop, availOf, offOf, blockSize, headerSize] at *
  split_ifs at * <;> omega

/-- In-memory model of `log::Writer`: the bytes written to the file so far and
the running `block_offset`. -/
structure Writer where
  file : List Nat
  blockOffset : Nat
deriving DecidableEq, Repr

/-- `Writer::new` on a fresh (empty) file. -/
def Writer.new : Writer := ⟨[], 0⟩

/-- `Writer::append` from `src/log.rs`. -/
def Writer.append (w : Writer) (msg : List Nat) : Writer :=
  ⟨w.file ++ (appendLoop w.blockOffset msg true).1, (appendLoop w.blockOffset msg true).2⟩

/-- Append a sequence of payloads to a fresh log. -/
def writeAll (msgs : List (List Nat)) : Writer := msgs.foldl Writer.append Writer.new

theorem writeFrame_length (ty : Nat) (message : List Nat) :
    (writeFrame ty message).length = headerSize + message.length := by
  simp [writeFrame, le32, le16, headerSize]
  omega

theorem offOf_add_headerSize_le (B : Nat) : offOf B + headerSize ≤ blockSize := by
  simp only [offOf, blockSize, headerSize]
  split_ifs <;> omega

/-- The final block offset produced by `Writer::append`'s loop never exceeds
`BLOCK_SIZE` (this is the writer's `assert!` in `Writer::write`). -/
theorem appendLoop_blockOffset_le (B : Nat) (msg : List Nat) (first : Bool) :
    (appendLoop B msg first).2 ≤ blockSize := by
  induction B, msg, first using appendLoop.induct with
  | case1 B msg first hle =>
    rw [appendLoop, if_pos hle]
    have := offOf_add_headerSize_le B
    simp only [availOf] at hle
    omega
  | case2 B msg first hgt ih =>
    rw [appendLoop, if_neg hgt]
    exact ih

/-- Structural description of the byte stream one `Writer::append` call emits,
starting at block offset `B`: a sequence of zero-padding runs (only when the
block tail is smaller than a header) and fragment frames, where every frame
is `writeFrame ty payload` — so its 4-byte checksum field is `crc32` of the
payload bytes alone (covering neither the length field nor the type byte)
and the frame fits inside the current block. -/
inductive FramesOk : Nat → List Nat → Prop where
  | nil : ∀ B, FramesOk B []
  | frame : ∀ B ty payload rest,
      headerSize ≤ blockSize - B →
      B + headerSize + payload.length ≤ blockSize →
      FramesOk (B + headerSize + payload.length) rest →
      FramesOk B (writeFrame ty payload ++ rest)
  | pad : ∀ B rest, blockSize - B < headerSize →
      FramesOk 0 rest →
      FramesOk B (List.replicate (blockSize - B) 0 ++ rest)

/-- C6 (amended): every fragment emitted by `Writer::append` carries a
checksum equal to `crc32` (the `crc32fast` IEEE CRC-32) of the fragment's
payload bytes only — the type byte and the length field are not covered, and
the checksum is not CRC-32C. -/
theorem c6_append_frames_checksum (B : Nat) (msg : List Nat) (first : Bool)
    (hB : B ≤ blockSize) : FramesOk B (appendLoop B msg first).1 := by
  clear hB
  have hbs : blockSize = 32768 := rfl
  have hhs : headerSize = 7 := rfl
  induction B, msg, first using appendLoop.induct with
  | case1 B msg first hle =>
    rw [appendLoop, if_pos hle]
    simp only [availOf] at hle
    by_cases hpad : blockSize - B < headerSize
    · rw [padOf, if_pos hpad]
      rw [offOf, if_pos hpad] at hle
      refine FramesOk.pad B _ hpad ?_
      have h0 : (writeFrame (if first then 1 else 4) msg : List Nat) =
          writeFrame (if first then 1 else 4) msg ++ [] := by simp
      rw [h0]
      exact FramesOk.frame 0 _ msg [] (by omega) (by omega) (FramesOk.nil _)
    · rw [padOf, if_neg hpad]
      rw [offOf, if_neg hpad] at hle
      simp only [List.nil_append]
      have h0 : (writeFrame (if first then 1 else 4) msg : List Nat) =
          writeFrame (if first then 1 else 4) msg ++ [] := by simp
      rw [h0]
      exact FramesOk.frame B _ msg [] (by omega) (by omega) (FramesOk.nil _)
  | case2 B msg first hgt ih =>
    rw [appendLoop, if_neg hgt]
    have hgt' : availOf B < msg.length := by omega
    have hlen : (msg.take (availOf B)).length = availOf B := by
      simp only [List.length_take]
      omega
    by_cases hpad : blockSize - B < headerSize
    · rw [padOf, if_pos hpad]
      rw [List.append_assoc]
      refine FramesOk.pad B _ hpad ?_
      have hoff : offOf B = 0 := by rw [offOf, if_pos hpad]
      have harg : 0 + headerSize + (msg.take (availOf B)).length =
          offOf B + headerSize + availOf B := by rw [hlen, hoff]
      refine FramesOk.frame 0 _ _ _ ?_ ?_ (harg ▸ ih)
      · omega
      · have := offOf_add_headerSize_le B
        simp only [availOf, hlen, hoff] at *
        omega
    · rw [padOf, if_neg hpad]
      simp only [List.nil_append]
      have hoff : offOf B = B := by rw [offOf, if_neg hpad]
      have harg : B + headerSize + (msg.take (availOf B)).length =
          offOf B + headerSize + availOf B := by rw [hlen, hoff]
      refine FramesOk.frame B _ _ _ (by omega) ?_ (harg ▸ ih)
      have := offOf_add_headerSize_le B
      simp only [availOf, hlen, hoff] at *
      omega

/-- C6 (witness): the frame-structure theorem applied to a concrete append of
payload `[10, 20]` to a fresh log. -/
theorem c6_append_frames_checksum_witness :
    0 ≤ blockSize ∧ FramesOk 0 (appendLoop 0 [10, 20] true).1 :=
  ⟨Nat.zero_le _, c6_append_frames_checksum 0 [10, 20] true (Nat.zero_le _)⟩

/-- C6 (counterexample): the claim that the checksum field equals CRC-32C over
the type byte followed by the payload fails already for the very first
fragment the writer can emit — appending the empty payload to a fresh log
produces one Full fragment whose checksum field is `le32 (crc32 [])`, which
differs from `le32 (crc32c [1])` (type byte `1`, empty payload). -/
theorem c6_crc_counterexample :
    (Writer.new.append []).file.take 4 = le32 (crc32 []) ∧
      (Writer.new.append []).file.take 4 ≠ le32 (crc32c [1]) := by
  have h : Writer.new.append [] = ⟨writeFrame 1 [], headerSize⟩ := by
    rw [Writer.append, appendLoop, if_pos (by simp [availOf])]
    simp [Writer.new, padOf, offOf, blockSize, headerSize]
  rw [h]
  constructor
  · rfl
  · decide

/-! ### C4: the `test_writer` calibration scenario (payload sizes 1000, 97270,
8000 appended to an empty log) -/

theorem padOf_length (B : Nat) :
    (padOf B).length = if blockSize - B < headerSize then blockSize - B else 0 := by
  rw [padOf]
  split_ifs <;> simp

theorem appendLoop_len_last (B : Nat) (msg : List Nat) (first : Bool)
    (h : msg.length ≤ availOf B) :
    (appendLoop B msg first).1.length = (padOf B).length + headerSize + msg.length ∧
      (appendLoop B msg first).2 = offOf B + headerSize + msg.length := by
  rw [appendLoop, if_pos h]
  simp [writeFrame_length]
  omega

theorem appendLoop_len_step (B : Nat) (msg : List Nat) (first : Bool)
    (h : ¬ msg.length ≤ availOf B) :
    (appendLoop B msg first).1.length = (padOf B).length + headerSize + availOf B +
        (appendLoop (offOf B + headerSize + availOf B) (msg.drop (availOf B)) false).1.length ∧
      (appendLoop B msg first).2 =
        (appendLoop (offOf B + headerSize + availOf B) (msg.drop (availOf B)) false).2 := by
  rw [appendLoop, if_neg h]
  simp [writeFrame_length, List.length_take]
  omega

theorem c4_append2_len (msg : List Nat) (h : msg.length = 97270) :
    (appendLoop 1007 msg true).1.length = 97291 ∧ (appendLoop 1007 msg true).2 = 32762 := by
  have hav1 : availOf 1007 = 31754 := by decide
  have hav2 : availOf 32768 = 32761 := by decide
  have hoff1 : offOf 1007 + headerSize + availOf 1007 = 32768 := by decide
  have hoff2 : offOf 32768 + headerSize + availOf 32768 = 32768 := by decide
  have s1 := appendLoop_len_step 1007 msg true (by rw [hav1, h]; decide)
  rw [hoff1] at s1
  have hd1 : (msg.drop (availOf 1007)).length = 65516 := by
    rw [List.length_drop, hav1, h]
  have s2 := appendLoop_len_step 32768 (msg.drop (availOf 1007)) false
    (by rw [hav2, hd1]; decide)
  rw [hoff2] at s2
  have hd2 : ((msg.drop (availOf 1007)).drop (availOf 32768)).length = 32755 := by
    rw [List.length_drop, hav2, hd1]
  have s3 := appendLoop_len_last 32768 ((msg.drop (availOf 1007)).drop (availOf 32768)) false
    (by rw [hd2, hav2]; decide)
  rw [hd2] at s3
  have hp1 : (padOf 1007).length = 0 := by decide
  have hp2 : (padOf 32768).length = 0 := by decide
  have hofv : offOf 32768 = 0 := by decide
  rw [hofv] at s3
  have hhs : headerSize = 7 := rfl
  constructor
  · rw [s1.1, s2.1, s3.1, hav1, hav2, hp1, hp2, hhs]
  · rw [s1.2, s2.2, s3.2, hhs]

theorem c4_append3_len (msg : List Nat) (h : msg.length = 8000) :
    (appendLoop 32762 msg true).1.length = 8013 ∧ (appendLoop 32762 msg true).2 = 8007 := by
  have s := appendLoop_len_last 32762 msg true (by rw [h]; decide)
  have hp : (padOf 32762).length = 6 := by decide
  have hofv : offOf 32762 = 0 := by decide
  rw [hofv] at s
  have hhs : headerSize = 7 := rfl
  exact ⟨by rw [s.1, hp, hhs, h], by rw [s.2, hhs, h]⟩

theorem c4_append1_len (msg : List Nat) (h : msg.length = 1000) :
    (appendLoop 0 msg true).1.length = 1007 ∧ (appendLoop 0 msg true).2 = 1007 := by
  have s := appendLoop_len_last 0 msg true (by rw [h]; decide)
  have hp : (padOf 0).length = 0 := by decide
  have hofv : offOf 0 = 0 := by decide
  rw [hofv] at s
  have hhs : headerSize = 7 := rfl
  exact ⟨by rw [s.1, hp, hhs, h], by rw [s.2, hhs, h]⟩

theorem Writer.append_file (w : Writer) (msg : List Nat) :
    (w.append msg).file = w.file ++ (appendLoop w.blockOffset msg true).1 := rfl

theorem Writer.append_blockOffset (w : Writer) (msg : List Nat) :
    (w.append msg).blockOffset = (appendLoop w.blockOffset msg true).2 := rfl

theorem c4_file_length :
    (writeAll [List.replicate 1000 1, List.replicate 97270 2,
      List.replicate 8000 3]).file.length = 106311 := by
  have h1 := c4_append1_len (List.replicate 1000 1) (List.length_replicate 1000 1)
  have h2 := c4_append2_len (List.replicate 97270 2) (List.length_replicate 97270 2)
  have h3 := c4_append3_len (List.replicate 8000 3) (List.length_replicate 8000 3)
  have e0 : writeAll [List.replicate 1000 1, List.replicate 97270 2,
        List.replicate 8000 3] =
      ((Writer.new.append (List.replicate 1000 1)).append
        (List.replicate 97270 2)).append (List.replicate 8000 3) := rfl
  rw [e0, Writer.append_file, Writer.append_blockOffset, Writer.append_file,
    Writer.append_blockOffset, Writer.append_file]
  have hn1 : Writer.new.file = ([] : List Nat) := rfl
  have hn2 : Writer.new.blockOffset = 0 := rfl
  rw [hn1, hn2, h1.2, h2.2]
  rw [List.length_append, List.length_append, List.length_append]
  rw [h1.1, h2.1, h3.1]
  norm_num

/-- C4 (counterexample): appending payloads of sizes 1000, 97270 and 8000 to
an empty log via `Writer::append` does not produce a file of length
`3 * 32768 = 98304`: the file is 106311 bytes long (the third payload does
not start a new block; only 6 bytes of padding precede it). -/
theorem c4_calibration_counterexample :
    (writeAll [List.replicate 1000 1, List.replicate 97270 2,
      List.replicate 8000 3]).file.length ≠ 3 * 32768 := by
  rw [c4_file_length]
  decide

/-- C4 (amended): the calibration file is 106311 = 3·32768 + 8007 bytes long,
so its length divided by `BLOCK_SIZE` is 3 — which is what the repository's
`test_writer` actually asserts (`file_size / BLOCK_SIZE == 3`), not an exact
length of 98304. -/
theorem c4_calibration_length :
    (writeAll [List.replicate 1000 1, List.replicate 97270 2,
        List.replicate 8000 3]).file.length = 106311 ∧
      (writeAll [List.replicate 1000 1, List.replicate 97270 2,
        List.replicate 8000 3]).file.length / blockSize = 3 :=
  ⟨c4_file_length, by rw [c4_file_length]; rfl⟩

/-! ## WriteBatch (`src/write_batch.rs`) -/

/-- `put_length_prefixed_slice` from `src/lib.rs`: varint32 length then the
bytes. -/
def put_length_prefixed_slice (data : List Nat) : List Nat :=
  put_varint32 data.length ++ data

/-- `decode_length_prefixed_slice` from `src/lib.rs` (`none` models a panic:
the inner `decode_varint32` indexes out of bounds, or the `assert!` that the
slice is long enough fails). Returns the value and the total bytes consumed. -/
def decode_length_prefixed_slice (data : List Nat) : Option (List Nat × Nat) := do
  let (length, offset) ← decode_varint32 data
  if offset + length ≤ data.length then
    some ((data.drop offset).take length, offset + length)
  else
    none

/-- `WRITE_BATCH_HEADER_SIZE` from `src/write_batch.rs`. -/
def writeBatchHeaderSize : Nat := 12

/-- `WriteBatch` from `src/write_batch.rs`: a byte buffer `rep` laid out as
`sequence u64 LE ‖ count u32 LE ‖ ops`. -/
structure WriteBatch where
  rep : List Nat
deriving DecidableEq, Repr

/-- `WriteBatch::new`. -/
def WriteBatch.new : WriteBatch := ⟨List.replicate writeBatchHeaderSize 0⟩

/-- `WriteBatch::clear`: clear then zero-resize to the header size. -/
def WriteBatch.clear (_wb : WriteBatch) : WriteBatch := WriteBatch.new

/-- `WriteBatch::set_sequence`: overwrite bytes 0..8 with the sequence. -/
def WriteBatch.set_sequence (wb : WriteBatch) (sequence : Nat) : WriteBatch :=
  ⟨le64 sequence ++ wb.rep.drop 8⟩

/-- `WriteBatch::set_count`: overwrite bytes 8..12 with the count. -/
def WriteBatch.set_count (wb : WriteBatch) (count : Nat) : WriteBatch :=
  ⟨wb.rep.take 8 ++ le32 count ++ wb.rep.drop 12⟩

/-- `WriteBatch::get_sequence`. -/
def WriteBatch.get_sequence (wb : WriteBatch) : Nat := decode_fixed64 wb.rep

/-- `WriteBatch::get_count`. -/
def WriteBatch.get_count (wb : WriteBatch) : Nat := decode_fixed32 (wb.rep.drop 8)

/-- `WriteBatch::put`: bump the count, then append tag 1, the
length-prefixed key and the length-prefixed value. -/
def WriteBatch.put (wb : WriteBatch) (key value : List Nat) : WriteBatch :=
  let wb' := wb.set_count (wb.get_count + 1)
  ⟨wb'.rep ++ [1] ++ put_length_prefixed_slice key ++ put_length_prefixed_slice value⟩

/-- `WriteBatch::delete`: bump the count, then append tag 0 and the
length-prefixed key. -/
def WriteBatch.delete (wb : WriteBatch) (key : List Nat) : WriteBatch :=
  let wb' := wb.set_count (wb.get_count + 1)
  ⟨wb'.rep ++ [0] ++ put_length_prefixed_slice key⟩

/-- `WriteBatch::from`: accept any byte buffer of at least header size. -/
def WriteBatch.from' (rep : List Nat) : Except Status WriteBatch :=
  if rep.length < writeBatchHeaderSize then .error .Corruption else .ok ⟨rep⟩

/-- A decoded batch operation (`ValueType` from `src/lib.rs`). -/
inductive VTOp where
  | deletion (key : List Nat)
  | value (key v : List Nat)
deriving DecidableEq, Repr

/-- Result of one `WriteBatchIter::next` call. -/
inductive IterStep where
  | done
  | yield (op : VTOp) (next : Nat)
  | corrupt
  | panic
deriving DecidableEq, Repr

/-- `WriteBatchIter::next` from `src/write_batch.rs` at absolute offset
`offset` into `rep`: `done` when the offset has reached the end of the
buffer, `corrupt` on an unknown tag byte, `panic` when length-prefixed
decoding panics, otherwise the decoded op and the next offset.  Note that the
`count` header field is never consulted. -/
def iterNext (rep : List Nat) (offset : Nat) : IterStep :=
  if rep.length ≤ offset then .done
  else
    let tag := rep.getD offset 0
    if tag = 0 then
      match decode_length_prefixed_slice (rep.drop (offset + 1)) with
      | none => .panic
      | some (key, bytes) => .yield (.deletion key) (offset + 1 + bytes)
    else if tag = 1 then
      match decode_length_prefixed_slice (rep.drop (offset + 1)) with
      | none => .panic
      | some (key, bytes) =>
        match decode_length_prefixed_slice (rep.drop (offset + 1 + bytes)) with
        | none => .panic
        | some (value, bytes2) => .yield (.value key value) (offset + 1 + bytes + bytes2)
    else .corrupt

theorem iterNext_yield_bounds {rep : List Nat} {offset : Nat} {op : VTOp} {next : Nat}
    (h : iterNext rep offset = .yield op next) : offset < rep.length ∧ offset < next := by
  rw [iterNext] at h
  by_cases h1 : rep.length ≤ offset
  · rw [if_pos h1] at h
    simp at h
  · rw [if_neg h1] at h
    refine ⟨by omega, ?_⟩
    by_cases h2 : rep.getD offset 0 = 0
    · rw [if_pos h2] at h
      split at h
      · simp at h
      · simp only [IterStep.yield.injEq] at h
        omega
    · rw [if_neg h2] at h
      by_cases h3 : rep.getD offset 0 = 1
      · rw [if_pos h3] at h
        split at h
        · simp at h
        · split at h
          · simp at h
          · simp only [IterStep.yield.injEq] at h
            omega
      · rw [if_neg h3] at h
        simp at h

/-- Driving `WriteBatchIter` to the end: the list of decoded ops, an error,
or a panic (`none`). -/
def iterOps (rep : List Nat) (offset : Nat) : Option (Except Status (List VTOp)) :=
  match h : iterNext rep offset with
  | .done => some (.ok [])
  | .corrupt => some (.error .Corruption)
  | .panic => none
  | .yield op next =>
    match iterOps rep next with
    | none => none
    | some (.error e) => some (.error e)
    | some (.ok ops) => some (.ok (op :: ops))
termination_by rep.length - offset
decreasing_by
  have := iterNext_yield_bounds h
  omega

theorem iterOps_eq_done {rep : List Nat} {offset : Nat} (h : iterNext rep offset = .done) :
    iterOps rep offset = some (.ok []) := by
  rw [iterOps]
  split <;> rename_i heq <;> rw [h] at heq <;> first | rfl | cases heq

theorem iterOps_eq_corrupt {rep : List Nat} {offset : Nat}
    (h : iterNext rep offset = .corrupt) : iterOps rep offset = some (.error .Corruption) := by
  rw [iterOps]
  split <;> rename_i heq <;> rw [h] at heq <;> first | rfl | cases heq

theorem iterOps_eq_panic {rep : List Nat} {offset : Nat} (h : iterNext rep offset = .panic) :
    iterOps rep offset = none := by
  rw [iterOps]
  split <;> rename_i heq <;> rw [h] at heq <;> first | rfl | cases heq

theorem iterOps_eq_yield {rep : List Nat} {offset : Nat} {op : VTOp} {next : Nat}
    (h : iterNext rep offset = .yield op next) :
    iterOps rep offset =
      match iterOps rep next with
      | none => none
      | some (.error e) => some (.error e)
      | some (.ok ops) => some (.ok (op :: ops)) := by
  rw [iterOps]
  split <;> rename_i heq <;> rw [h] at heq <;> cases heq <;> rfl

/-- Offset-shifting wrapper for `iterNext` results. -/
def shiftStep (d : Nat) : IterStep → IterStep
  | .yield op n => .yield op (d + n)
  | s => s

theorem iterNext_append (hdr ops : List Nat) (k : Nat)
    (e : hdr.length = writeBatchHeaderSize) :
    iterNext (hdr ++ ops) (writeBatchHeaderSize + k) =
      shiftStep writeBatchHeaderSize (iterNext ops k) := by
  simp only [writeBatchHeaderSize] at *
  rw [iterNext, iterNext]
  have hlen : (hdr ++ ops).length = 12 + ops.length := by
    rw [List.length_append, e]
  by_cases hc : ops.length ≤ k
  · rw [if_pos (by omega), if_pos hc]
    rfl
  · rw [if_neg (by omega), if_neg hc]
    have hgd : (hdr ++ ops).getD (12 + k) 0 = ops.getD k 0 := by
      rw [List.getD_eq_getElem?_getD, List.getD_eq_getElem?_getD,
        List.getElem?_append_right (by omega)]
      have h12 : 12 + k - hdr.length = k := by omega
      rw [h12]
    have hdrop : ∀ m, (hdr ++ ops).drop (12 + k + m) = ops.drop (k + m) := by
      intro m
      have h1 : 12 + k + m = hdr.length + (k + m) := by omega
      rw [h1, List.drop_append]
    have hd1 : (hdr ++ ops).drop (12 + k + 1) = ops.drop (k + 1) := hdrop 1
    rw [hgd, hd1]
    by_cases ht0 : ops.getD k 0 = 0
    · rw [if_pos ht0, if_pos ht0]
      cases hdls : decode_length_prefixed_slice (ops.drop (k + 1)) with
      | none => rfl
      | some kv =>
        obtain ⟨key, bytes⟩ := kv
        show IterStep.yield (VTOp.deletion key) (12 + k + 1 + bytes) =
          IterStep.yield (VTOp.deletion key) (12 + (k + 1 + bytes))
        have harith : 12 + k + 1 + bytes = 12 + (k + 1 + bytes) := by omega
        rw [harith]
    · rw [if_neg ht0, if_neg ht0]
      by_cases ht1 : ops.getD k 0 = 1
      · rw [if_pos ht1, if_pos ht1]
        cases hdls : decode_length_prefixed_slice (ops.drop (k + 1)) with
        | none => rfl
        | some kv =>
          obtain ⟨key, bytes⟩ := kv
          have hd2 : (hdr ++ ops).drop (12 + k + 1 + bytes) = ops.drop (k + 1 + bytes) := by
            have h2 : 12 + k + 1 + bytes = 12 + k + (1 + bytes) := by omega
            have h3 : k + 1 + bytes = k + (1 + bytes) := by omega
            rw [h2, h3, hdrop]
          simp only [hd2]
          cases hdls2 : decode_length_prefixed_slice (ops.drop (k + 1 + bytes)) with
          | none => rfl
          | some kv2 =>
            obtain ⟨value, bytes2⟩ := kv2
            show IterStep.yield (VTOp.value key value) (12 + k + 1 + bytes + bytes2) =
              IterStep.yield (VTOp.value key value) (12 + (k + 1 + bytes + bytes2))
            have harith : 12 + k + 1 + bytes + bytes2 = 12 + (k + 1 + bytes + bytes2) := by omega
            rw [harith]
      · rw [if_neg ht1, if_neg ht1]
        rfl

/-- C5 (amended): `WriteBatchIter` never consults the batch header — in
particular not the `count` field at bytes 8..12: iterating a batch whose
buffer is any 12-byte header followed by `ops` decodes exactly the operations
encoded in `ops`, regardless of the header contents.  A batch can therefore
iterate without error while yielding a number of operations different from
`get_count()`. -/
theorem c5_iter_ignores_count (hdr ops : List Nat)
    (e : hdr.length = writeBatchHeaderSize) :
    iterOps (hdr ++ ops) writeBatchHeaderSize = iterOps ops 0 := by
  suffices H : ∀ n k, ops.length - k ≤ n →
      iterOps (hdr ++ ops) (writeBatchHeaderSize + k) = iterOps ops k by
    have := H ops.length 0 (by omega)
    simpa using this
  intro n
  induction n with
  | zero =>
    intro k hk
    have hdone : iterNext ops k = .done := by
      rw [iterNext, if_pos (by omega)]
    have hdone' : iterNext (hdr ++ ops) (writeBatchHeaderSize + k) = .done := by
      rw [iterNext_append hdr ops k e, hdone]
      rfl
    rw [iterOps_eq_done hdone, iterOps_eq_done hdone']
  | succ n ih =>
    intro k hk
    have hshift := iterNext_append hdr ops k e
    cases hstep : iterNext ops k with
    | done =>
      rw [hstep] at hshift
      rw [iterOps_eq_done hstep, iterOps_eq_done hshift]
    | corrupt =>
      rw [hstep] at hshift
      rw [iterOps_eq_corrupt hstep, iterOps_eq_corrupt hshift]
    | panic =>
      rw [hstep] at hshift
      rw [iterOps_eq_panic hstep, iterOps_eq_panic hshift]
    | yield op next =>
      rw [hstep] at hshift
      have hb := iterNext_yield_bounds hstep
      rw [iterOps_eq_yield hstep, iterOps_eq_yield hshift]
      rw [ih next (by omega)]

/-- C5 (witness): the header-independence theorem at a concrete batch — a
single `delete` op with empty key after an arbitrary header. -/
theorem c5_iter_ignores_count_witness :
    ([9, 9, 9, 9, 9, 9, 9, 9, 7, 7, 7, 7] : List Nat).length = writeBatchHeaderSize ∧
      iterOps ([9, 9, 9, 9, 9, 9, 9, 9, 7, 7, 7, 7] ++ [0, 0]) writeBatchHeaderSize =
        iterOps [0, 0] 0 :=
  ⟨by decide, c5_iter_ignores_count [9, 9, 9, 9, 9, 9, 9, 9, 7, 7, 7, 7] [0, 0] (by decide)⟩

/-- C5 (counterexample): a 12-byte batch whose count field says 5 but which
contains zero operations iterates to completion with no error — the
operation region ends before `count` operations have been decoded, yet no
corruption is reported, refuting the claim.  (`WriteBatch::from` accepts this
buffer, `get_count` reads 5, and iteration yields the empty op list.) -/
theorem c5_count_counterexample :
    WriteBatch.from' [0, 0, 0, 0, 0, 0, 0, 0, 5, 0, 0, 0] =
        .ok ⟨[0, 0, 0, 0, 0, 0, 0, 0, 5, 0, 0, 0]⟩ ∧
      WriteBatch.get_count ⟨[0, 0, 0, 0, 0, 0, 0, 0, 5, 0, 0, 0]⟩ = 5 ∧
      iterOps [0, 0, 0, 0, 0, 0, 0, 0, 5, 0, 0, 0] writeBatchHeaderSize = some (.ok []) ∧
      ([] : List VTOp).length ≠ WriteBatch.get_count ⟨[0, 0, 0, 0, 0, 0, 0, 0, 5, 0, 0, 0]⟩ := by
  refine ⟨rfl, by decide, ?_, by decide⟩
  exact iterOps_eq_done (by decide)

/-! ## MemTable (`src/lib.rs`) -/

/-- `ValueItem` from `src/lib.rs`: a live value or a deletion tombstone. -/
inductive ValueItem where
  | Deletion
  | Value (v : List Nat)
deriving DecidableEq, Repr

/-- `MemTable` from `src/lib.rs`.  The Rust `HashMap<Vec<u8>, ValueItem>` is
embedded as an association list that, like the hash map, holds at most one
entry per key: `entry().and_modify()` updates the entry in place and
`or_insert_with` appends a fresh one. -/
structure MemTable where
  total_bytes : Nat
  entry_count : Nat
  items : List (List Nat × ValueItem)
deriving DecidableEq, Repr

/-- `MemTable::default()`. -/
def MemTable.empty : MemTable := ⟨0, 0, []⟩

/-- `HashMap::get` on the association list (first matching key; the list
holds at most one entry per key). -/
def assocFind : List (List Nat × ValueItem) → List Nat → Option ValueItem
  | [], _ => none
  | p :: rest, key => if p.1 = key then some p.2 else assocFind rest key

/-- The stored length accounted by `total_bytes` for an old entry's value. -/
def oldValueLen : ValueItem → Nat
  | .Deletion => 0
  | .Value v => v.length

/-- `MemTable::get`: a tombstone and an absent key both read back as `None`. -/
def MemTable.get (m : MemTable) (key : List Nat) : Option (List Nat) :=
  match assocFind m.items key with
  | some (.Value v) => some v
  | _ => none

/-- `MemTable::set`: update in place when present, append when absent. -/
def MemTable.set (m : MemTable) (key value : List Nat) : MemTable :=
  match assocFind m.items key with
  | some old =>
    { total_bytes := m.total_bytes - oldValueLen old + value.length,
      entry_count := m.entry_count,
      items := m.items.map (fun p => if p.1 = key then (p.1, .Value value) else p) }
  | none =>
    { total_bytes := m.total_bytes + key.length + value.length,
      entry_count := m.entry_count + 1,
      items := m.items ++ [(key, .Value value)] }

/-- `MemTable::delete`: tombstone in place when present, append when absent. -/
def MemTable.delete (m : MemTable) (key : List Nat) : MemTable :=
  match assocFind m.items key with
  | some old =>
    { total_bytes := m.total_bytes - oldValueLen old,
      entry_count := m.entry_count,
      items := m.items.map (fun p => if p.1 = key then (p.1, .Deletion) else p) }
  | none =>
    { total_bytes := m.total_bytes + key.length,
      entry_count := m.entry_count + 1,
      items := m.items ++ [(key, .Deletion)] }

/-- `MemTable::iter`: entries sorted by key (`sorted_by k1.cmp(k2)`, i.e. the
lexicographic byte order of `Vec<u8>`). -/
def MemTable.iter (m : MemTable) : List (List Nat × ValueItem) :=
  m.items.insertionSort (fun a b => a.1 ≤ b.1)

/-- One user-level memtable operation (C10 quantifies over sequences of
these). -/
inductive MTOp where
  | set (key value : List Nat)
  | del (key : List Nat)
deriving DecidableEq, Repr

/-- The user key an operation touches. -/
def MTOp.key : MTOp → List Nat
  | .set k _ => k
  | .del k => k

/-- Apply one operation to a memtable. -/
def MemTable.apply : MemTable → MTOp → MemTable
  | m, .set k v => m.set k v
  | m, .del k => m.delete k

/-- Run a sequence of operations against the fresh memtable. -/
def MemTable.run (ops : List MTOp) : MemTable := ops.foldl MemTable.apply MemTable.empty

/-- Reference semantics of `get` after a sequence of operations, starting
from a given prior reading: the most recent operation on the key wins. -/
def specLastFrom (ops : List MTOp) (init : Option (List Nat)) (k : List Nat) :
    Option (List Nat) :=
  ops.foldl (fun acc op =>
    match op with
    | .set k' v => if k' = k then some v else acc
    | .del k' => if k' = k then none else acc) init

/-- Reference semantics of `get` on a fresh memtable. -/
def specLast (ops : List MTOp) (k : List Nat) : Option (List Nat) :=
  specLastFrom ops none k

theorem assocFind_eq_none_iff (items : List (List Nat × ValueItem)) (key : List Nat) :
    assocFind items key = none ↔ key ∉ items.map Prod.fst := by
  induction items with
  | nil => simp [assocFind]
  | cons p rest ih =>
    by_cases hp : p.1 = key
    · simp [assocFind, hp]
    · rw [assocFind, if_neg hp]
      simp only [List.map_cons, List.mem_cons]
      rw [ih]
      constructor
      · rintro h (h1 | h2)
        · exact hp h1.symm
        · exact h h2
      · intro h hmem
        exact h (Or.inr hmem)

theorem assocFind_mapUpdate (items : List (List Nat × ValueItem)) (k k' : List Nat)
    (newv : ValueItem) :
    assocFind (items.map (fun p => if p.1 = k then (p.1, newv) else p)) k' =
      if k' = k then (assocFind items k).map (fun _ => newv) else assocFind items k' := by
  induction items with
  | nil => by_cases h : k' = k <;> simp [assocFind, h]
  | cons p rest ih =>
    simp only [List.map_cons]
    by_cases hpk : p.1 = k
    · simp only [if_pos hpk]
      by_cases hk : k' = k
      · subst hk
        rw [assocFind, if_pos hpk, if_pos rfl, assocFind, if_pos hpk]
        rfl
      · have hpk' : ¬ p.1 = k' := by
          intro hh
          rw [hh] at hpk
          exact hk hpk
        rw [assocFind, if_neg hpk', if_neg hk, assocFind, if_neg hpk', ih, if_neg hk]
    · simp only [if_neg hpk]
      by_cases hk : k' = k
      · subst hk
        rw [assocFind, if_neg hpk, if_pos rfl, assocFind, if_neg hpk, ih, if_pos rfl]
      · by_cases hpk' : p.1 = k'
        · rw [assocFind, if_pos hpk', if_neg hk, assocFind, if_pos hpk']
        · rw [assocFind, if_neg hpk', if_neg hk, assocFind, if_neg hpk', ih, if_neg hk]

theorem assocFind_append_single (items : List (List Nat × ValueItem)) (k k' : List Nat)
    (v : ValueItem) (h : assocFind items k' = none) :
    assocFind (items ++ [(k, v)]) k' = if k' = k then some v else none := by
  induction items with
  | nil =>
    by_cases hk : k' = k
    · have hh : ((k, v) : List Nat × ValueItem).1 = k' := hk.symm
      rw [List.nil_append, assocFind, if_pos hh, if_pos hk]
    · have hh : ¬ ((k, v) : List Nat × ValueItem).1 = k' := by
        intro he
        exact hk he.symm
      rw [List.nil_append, assocFind, if_neg hh, if_neg hk]
      rfl
  | cons p rest ih =>
    by_cases hpk : p.1 = k'
    · rw [assocFind, if_pos hpk] at h
      cases h
    · rw [assocFind, if_neg hpk] at h
      rw [List.cons_append, assocFind, if_neg hpk]
      exact ih h

theorem assocFind_some_mem {items : List (List Nat × ValueItem)} {key : List Nat}
    {v : ValueItem} (h : assocFind items key = some v) : key ∈ items.map Prod.fst := by
  by_contra hmem
  rw [← assocFind_eq_none_iff] at hmem
  rw [hmem] at h
  cases h

theorem keys_mapUpdate (items : List (List Nat × ValueItem)) (k : List Nat)
    (newv : ValueItem) :
    (items.map (fun p => if p.1 = k then (p.1, newv) else p)).map Prod.fst =
      items.map Prod.fst := by
  induction items with
  | nil => rfl
  | cons p rest ih =>
    simp only [List.map_cons, ih, List.cons.injEq, and_true]
    split_ifs <;> rfl

theorem assocFind_append_of_some {items : List (List Nat × ValueItem)} {k' : List Nat}
    {x : ValueItem} (k : List Nat) (v : ValueItem) (h : assocFind items k' = some x) :
    assocFind (items ++ [(k, v)]) k' = some x := by
  induction items with
  | nil => cases h
  | cons p rest ih =>
    by_cases hpk : p.1 = k'
    · rw [assocFind, if_pos hpk] at h
      rw [List.cons_append, assocFind, if_pos hpk]
      exact h
    · rw [assocFind, if_neg hpk] at h
      rw [List.cons_append, assocFind, if_neg hpk]
      exact ih h

theorem MemTable.get_set (m : MemTable) (k v k' : List Nat) :
    (m.set k v).get k' = if k' = k then some v else m.get k' := by
  rw [MemTable.set]
  cases hf : assocFind m.items k with
  | some old =>
    simp only [MemTable.get, assocFind_mapUpdate, hf]
    by_cases hk : k' = k
    · simp [hk]
    · simp [hk]
  | none =>
    simp only [MemTable.get]
    cases hf' : assocFind m.items k' with
    | some x =>
      have hne : ¬ k' = k := by
        intro he
        rw [he, hf] at hf'
        cases hf'
      rw [assocFind_append_of_some k (.Value v) hf', if_neg hne]
    | none =>
      rw [assocFind_append_single m.items k k' (.Value v) hf']
      by_cases hk : k' = k
      · simp [hk]
      · simp [hk]

theorem MemTable.get_delete (m : MemTable) (k k' : List Nat) :
    (m.delete k).get k' = if k' = k then none else m.get k' := by
  rw [MemTable.delete]
  cases hf : assocFind m.items k with
  | some old =>
    simp only [MemTable.get, assocFind_mapUpdate, hf]
    by_cases hk : k' = k
    · simp [hk]
    · simp [hk]
  | none =>
    simp only [MemTable.get]
    cases hf' : assocFind m.items k' with
    | some x =>
      have hne : ¬ k' = k := by
        intro he
        rw [he, hf] at hf'
        cases hf'
      rw [assocFind_append_of_some k .Deletion hf', if_neg hne]
    | none =>
      rw [assocFind_append_single m.items k k' .Deletion hf']
      by_cases hk : k' = k
      · simp [hk]
      · simp [hk]

/-- The keys, entry count and key set after one operation.  Touching an
existing key leaves the key list unchanged; a fresh key is appended. -/
theorem MemTable.apply_keys (m : MemTable) (op : MTOp) :
    ((m.apply op).items.map Prod.fst = m.items.map Prod.fst ∧
        (m.apply op).entry_count = m.entry_count ∧ op.key ∈ m.items.map Prod.fst) ∨
      ((m.apply op).items.map Prod.fst = m.items.map Prod.fst ++ [op.key] ∧
        (m.apply op).entry_count = m.entry_count + 1 ∧ op.key ∉ m.items.map Prod.fst) := by
  cases op with
  | set k v =>
    rw [MemTable.apply, MemTable.set]
    cases hf : assocFind m.items k with
    | some old =>
      left
      exact ⟨keys_mapUpdate m.items k _, rfl, assocFind_some_mem hf⟩
    | none =>
      right
      refine ⟨?_, rfl, (assocFind_eq_none_iff m.items k).1 hf⟩
      simp [MTOp.key]
  | del k =>
    rw [MemTable.apply, MemTable.delete]
    cases hf : assocFind m.items k with
    | some old =>
      left
      exact ⟨keys_mapUpdate m.items k _, rfl, assocFind_some_mem hf⟩
    | none =>
      right
      refine ⟨?_, rfl, (assocFind_eq_none_iff m.items k).1 hf⟩
      simp [MTOp.key]

/-- `get` after one operation follows the most-recent-operation semantics. -/
theorem MemTable.apply_get (m : MemTable) (op : MTOp) (k : List Nat) :
    (m.apply op).get k =
      match op with
      | .set k' v => if k' = k then some v else m.get k
      | .del k' => if k' = k then none else m.get k := by
  cases op with
  | set k' v =>
    show (m.set k' v).get k = if k' = k then some v else m.get k
    rw [MemTable.get_set]
    by_cases h : k = k'
    · rw [if_pos h, if_pos h.symm]
    · rw [if_neg h, if_neg (fun he => h he.symm)]
  | del k' =>
    show (m.delete k').get k = if k' = k then none else m.get k
    rw [MemTable.get_delete]
    by_cases h : k = k'
    · rw [if_pos h, if_pos h.symm]
    · rw [if_neg h, if_neg (fun he => h he.symm)]

theorem memtable_run_aux (ops : List MTOp) :
    ∀ m : MemTable, (m.items.map Prod.fst).Nodup →
    m.entry_count = (m.items.map Prod.fst).length →
    (((ops.foldl MemTable.apply m).items.map Prod.fst).Nodup ∧
      (ops.foldl MemTable.apply m).entry_count =
        ((ops.foldl MemTable.apply m).items.map Prod.fst).length ∧
      (∀ k, (ops.foldl MemTable.apply m).get k = specLastFrom ops (m.get k) k) ∧
      ((ops.foldl MemTable.apply m).items.map Prod.fst).toFinset =
        (m.items.map Prod.fst).toFinset ∪ (ops.map MTOp.key).toFinset) := by
  induction ops with
  | nil =>
    intro m h1 h2
    refine ⟨h1, h2, fun k => rfl, by simp⟩
  | cons op rest ih =>
    intro m h1 h2
    rw [List.foldl_cons]
    have happly := MemTable.apply_keys m op
    have hnodup : ((m.apply op).items.map Prod.fst).Nodup := by
      rcases happly with ⟨hk, _, _⟩ | ⟨hk, _, hmem⟩
      · rw [hk]; exact h1
      · rw [hk, List.nodup_append]
        refine ⟨h1, List.nodup_singleton _, ?_⟩
        intro a ha hb
        rw [List.mem_singleton] at hb
        exact hmem (hb ▸ ha)
    have hcount : (m.apply op).entry_count = ((m.apply op).items.map Prod.fst).length := by
      rcases happly with ⟨hk, hc, _⟩ | ⟨hk, hc, _⟩
      · rw [hk, hc]; exact h2
      · rw [hk, hc, List.length_append, h2]
        rfl
    obtain ⟨ih1, ih2, ih3, ih4⟩ := ih (m.apply op) hnodup hcount
    refine ⟨ih1, ih2, ?_, ?_⟩
    · intro k
      rw [ih3 k, MemTable.apply_get]
      cases op with
      | set k' v => rfl
      | del k' => rfl
    · rw [ih4, List.map_cons, List.toFinset_cons]
      have hone : ((m.apply op).items.map Prod.fst).toFinset =
          insert op.key ((m.items.map Prod.fst)).toFinset ∨
          (((m.apply op).items.map Prod.fst).toFinset =
            (m.items.map Prod.fst).toFinset ∧ op.key ∈ (m.items.map Prod.fst).toFinset) := by
        rcases happly with ⟨hk, _, hmem⟩ | ⟨hk, _, hmem⟩
        · right
          exact ⟨by rw [hk], List.mem_toFinset.2 hmem⟩
        · left
          rw [hk, List.toFinset_append]
          rw [show ([op.key] : List (List Nat)).toFinset = {op.key} from rfl]
          rw [Finset.union_comm, ← Finset.insert_eq]
      rcases hone with he | ⟨he, hmem⟩
      · rw [he, Finset.insert_union, Finset.union_insert]
      · rw [he, Finset.union_insert,
          Finset.insert_eq_self.2 (Finset.mem_union_left _ hmem)]

instance : IsTotal (List Nat × ValueItem) (fun a b => a.1 ≤ b.1) :=
  ⟨fun a b => le_total a.1 b.1⟩

instance : IsTrans (List Nat × ValueItem) (fun a b => a.1 ≤ b.1) :=
  ⟨fun _ _ _ hab hbc => le_trans hab hbc⟩

/-- `MemTable::iter` yields keys in strictly ascending byte order whenever the
stored keys are distinct. -/
theorem MemTable.iter_sorted (m : MemTable) (h : (m.items.map Prod.fst).Nodup) :
    (m.iter.map Prod.fst).Pairwise (· < ·) := by
  have hperm : List.Perm m.iter m.items := List.perm_insertionSort _ _
  have hsorted : m.iter.Pairwise (fun a b => a.1 ≤ b.1) :=
    List.sorted_insertionSort _ m.items
  have hnodup : (m.iter.map Prod.fst).Nodup :=
    ((hperm.map Prod.fst).nodup_iff).2 h
  have hle : (m.iter.map Prod.fst).Pairwise (· ≤ ·) :=
    List.pairwise_map.2 hsorted
  have hand := hle.and hnodup
  exact hand.imp (fun hab => lt_of_le_of_ne hab.1 hab.2)

/-- C10: after any sequence of `set`/`delete` operations on a fresh memtable,
the memtable holds at most one entry per user key (`Nodup` keys), `get`
reflects only the most recent operation on the key, `iter` yields each key at
most once in strictly ascending byte order, and `entry_count` equals the
number of distinct keys ever touched. -/
theorem c10_memtable_invariant (ops : List MTOp) :
    ((MemTable.run ops).items.map Prod.fst).Nodup ∧
      (∀ k, (MemTable.run ops).get k = specLast ops k) ∧
      ((MemTable.run ops).iter.map Prod.fst).Pairwise (· < ·) ∧
      (MemTable.run ops).entry_count = (ops.map MTOp.key).toFinset.card := by
  obtain ⟨h1, h2, h3, h4⟩ := memtable_run_aux ops MemTable.empty (by simp [MemTable.empty])
    (by simp [MemTable.empty])
  rw [MemTable.run]
  refine ⟨h1, fun k => h3 k, MemTable.iter_sorted _ h1, ?_⟩
  rw [h2, ← List.toFinset_card_of_nodup h1, h4]
  have hempty : ((MemTable.empty.items.map Prod.fst).toFinset : Finset (List Nat)) = ∅ := rfl
  rw [hempty, Finset.empty_union]

/-! ## DB facade (`src/lib.rs`) -/

/-- `DB` from `src/lib.rs`. -/
structure DB where
  mem_table : MemTable
  log_writer : Writer
  sequence : Nat
  wb : WriteBatch

/-- `DB::open`: `File::create` creates or truncates `espikey.wal` (so the log
file starts empty regardless of `priorWal`, the WAL bytes previously
persisted in the directory), the memtable starts as `MemTable::default()`,
and the sequence counter starts at 0 (`// TODO: from manifest` — no replay or
recovery is performed). -/
def DB.open (priorWal : List Nat) : DB :=
  ⟨MemTable.empty, Writer.new, 0, WriteBatch.new⟩

/-- `DB::get`. -/
def DB.get (db : DB) (key : List Nat) : Except Status (List Nat) :=
  match db.mem_table.get key with
  | some v => .ok v
  | none => .error .NotFound

/-- Apply one decoded batch op to the memtable (`WriteBatch::apply_to` body). -/
def MemTable.applyOp (m : MemTable) : VTOp → MemTable
  | .deletion k => m.delete k
  | .value k v => m.set k v

/-- The iteration inside `WriteBatch::apply_to`: ops are applied one by one,
so an error part-way leaves the earlier ops applied. -/
def applyLoop (rep : List Nat) (offset : Nat) (m : MemTable) :
    Option (MemTable × Except Status Unit) :=
  match h : iterNext rep offset with
  | .done => some (m, .ok ())
  | .corrupt => some (m, .error .Corruption)
  | .panic => none
  | .yield op next => applyLoop rep next (m.applyOp op)
termination_by rep.length - offset
decreasing_by
  have := iterNext_yield_bounds h
  omega

/-- `WriteBatch::apply_to` (the `WriteBatchIter::new` assert is a panic on a
short buffer). -/
def WriteBatch.apply_to (wb : WriteBatch) (m : MemTable) :
    Option (MemTable × Except Status Unit) :=
  if wb.rep.length < writeBatchHeaderSize then none
  else applyLoop wb.rep writeBatchHeaderSize m

/-- `DB::write` from `src/lib.rs`, with the outcomes of the two fallible I/O
steps (`log_writer.append`, `log_writer.sync`) passed in as oracles
(`appendResult`, `syncResult`); the overall `none` models a panic inside
`apply_to`.  Mirrors the source order: stamp the batch sequence, compute the
new last sequence, append to the log, optionally sync, apply to the memtable,
and only then publish the sequence. -/
def DB.write (db : DB) (sync : Bool) (appendResult syncResult : Except Status Unit) :
    Option (DB × Except Status Unit) :=
  let wb1 := db.wb.set_sequence (db.sequence + 1)
  let lastSequence := db.sequence + wb1.get_count
  match appendResult with
  | .error e => some ({db with wb := wb1}, .error e)
  | .ok _ =>
    let db2 := {db with wb := wb1, log_writer := db.log_writer.append wb1.rep}
    match (if sync then syncResult else .ok ()) with
    | .error e => some (db2, .error e)
    | .ok _ =>
      match wb1.apply_to db2.mem_table with
      | none => none
      | some (m, .error e) => some ({db2 with mem_table := m}, .error e)
      | some (m, .ok _) =>
        some ({db2 with mem_table := m, sequence := lastSequence}, .ok ())

/-- `DB::put`: clear the scratch batch, stage the put, commit. -/
def DB.put (db : DB) (key value : List Nat) (sync : Bool)
    (appendResult syncResult : Except Status Unit) : Option (DB × Except Status Unit) :=
  DB.write {db with wb := (db.wb.clear).put key value} sync appendResult syncResult

/-- `DB::delete`: clear the scratch batch, stage the delete, commit. -/
def DB.delete (db : DB) (key : List Nat) (sync : Bool)
    (appendResult syncResult : Except Status Unit) : Option (DB × Except Status Unit) :=
  DB.write {db with wb := (db.wb.clear).delete key} sync appendResult syncResult

/-- C2: if the log-append step or the sync step of a commit fails, the commit
(`DB::write`, and hence `DB::put` / `DB::delete`) returns that error and
neither the memtable contents nor the published sequence counter change. -/
theorem c2_commit_failure_atomicity (db : DB) (key value : List Nat) (sync : Bool)
    (ar sr : Except Status Unit) (e : Status)
    (h : ar = .error e ∨ (ar = .ok () ∧ sync = true ∧ sr = .error e)) :
    (∃ db', DB.write db sync ar sr = some (db', .error e) ∧
      db'.mem_table = db.mem_table ∧ db'.sequence = db.sequence) ∧
    (∃ db', DB.put db key value sync ar sr = some (db', .error e) ∧
      db'.mem_table = db.mem_table ∧ db'.sequence = db.sequence) ∧
    (∃ db', DB.delete db key sync ar sr = some (db', .error e) ∧
      db'.mem_table = db.mem_table ∧ db'.sequence = db.sequence) := by
  have hwrite : ∀ dbx : DB, dbx.mem_table = db.mem_table → dbx.sequence = db.sequence →
      ∃ db', DB.write dbx sync ar sr = some (db', .error e) ∧
        db'.mem_table = db.mem_table ∧ db'.sequence = db.sequence := by
    intro dbx hm hs
    rcases h with he | ⟨ha, hsync, he⟩
    · subst he
      exact ⟨{dbx with wb := dbx.wb.set_sequence (dbx.sequence + 1)}, rfl, hm, hs⟩
    · subst ha
      subst hsync
      subst he
      exact ⟨_, rfl, hm, hs⟩
  exact ⟨hwrite db rfl rfl, hwrite _ rfl rfl, hwrite _ rfl rfl⟩

/-- C2 (witness): the atomicity theorem at a concrete database state and a
failing append. -/
theorem c2_commit_failure_atomicity_witness :
    ((Except.error Status.IOError : Except Status Unit) = .error .IOError ∨
        ((Except.error Status.IOError : Except Status Unit) = .ok () ∧ true = true ∧
          (Except.ok () : Except Status Unit) = .error .IOError)) ∧
      (∃ db', DB.write (DB.open []) true (.error .IOError) (.ok ()) =
          some (db', .error .IOError) ∧
        db'.mem_table = (DB.open []).mem_table ∧ db'.sequence = (DB.open []).sequence) :=
  ⟨Or.inl rfl,
    (c2_commit_failure_atomicity (DB.open []) [1] [2] true (.error .IOError) (.ok ())
      .IOError (Or.inl rfl)).1⟩

/-- C9: `DB::open` yields an empty store: the WAL file is created/truncated
to empty, the memtable is empty so `get` returns `NotFound` for every key,
and the sequence counter is 0 — regardless of any data previously persisted
(no log replay is performed). -/
theorem c9_open_empty_store (priorWal : List Nat) (k : List Nat) :
    (DB.open priorWal).get k = .error .NotFound ∧ (DB.open priorWal).sequence = 0 ∧
      (DB.open priorWal).log_writer.file = [] :=
  ⟨rfl, rfl, rfl⟩

/-! ## Log reader (`src/log.rs`) -/

/-- `log::Reader`: `input` is the file content not yet pulled by `File::read`,
`avail` the unconsumed remainder of the current 32 KiB buffer
(`buffer[buffer_offset..buffer_length]`), `eof` the reader's EOF latch. -/
structure Reader where
  input : List Nat
  avail : List Nat
  eof : Bool
deriving DecidableEq, Repr

/-- `Reader::new` on a file with the given contents. -/
def Reader.new (file : List Nat) : Reader := ⟨file, [], false⟩

/-- Termination measure for the reader loops. -/
def Reader.size (r : Reader) : Nat := r.input.length + r.avail.length

/-- One `file.read(&mut buffer)` call: a regular file fills the whole 32 KiB
buffer unless the file ends first, and a short read latches `eof`. -/
def refill (r : Reader) : Reader :=
  ⟨r.input.drop blockSize, r.input.take blockSize, decide (r.input.length < blockSize)⟩

/-- The header-parsing part of `Reader::read_physical`, reached when the
buffer holds at least `HEADER_SIZE` unconsumed bytes.  The length field is
bytes 4..6 (LE), the type byte is byte 6.  The checksum in bytes 0..4 is read
but never verified (`// TODO: check checksum` in the source). -/
def parseFragment (r : Reader) : Reader × Except Status (Option (Nat × List Nat)) :=
  let length := r.avail.getD 4 0 + 256 * r.avail.getD 5 0
  let ty := r.avail.getD 6 0
  if length + headerSize > r.avail.length then
    ({r with avail := []}, if r.eof then .ok none else .error .Corruption)
  else if ty = 0 ∧ length = 0 then
    ({r with avail := []}, .error .Corruption)
  else
    let payload := (r.avail.drop headerSize).take length
    let r' := {r with avail := r.avail.drop (headerSize + length)}
    if ty = 1 ∨ ty = 2 ∨ ty = 3 ∨ ty = 4 then (r', .ok (some (ty, payload)))
    else (r', .error .Corruption)

/-- `Reader::read_physical`.  The loop performs at most one refill before
resolving: if the refilled buffer is still shorter than a header then the
read was short, so `eof` is set and the next loop iteration returns `None`. -/
def read_physical (r : Reader) : Reader × Except Status (Option (Nat × List Nat)) :=
  if r.avail.length < headerSize then
    if r.eof then (r, .ok none)
    else
      let r' := refill r
      if r'.avail.length < headerSize then (r', .ok none)
      else parseFragment r'
  else parseFragment r

theorem parseFragment_some {r r' : Reader} {x : Nat × List Nat}
    (h : parseFragment r = (r', .ok (some x))) :
    r'.input = r.input ∧ r'.avail.length + headerSize ≤ r.avail.length := by
  rw [parseFragment] at h
  split_ifs at h with h1 h2 h3 h4
  · simp at h
  · simp at h
  · simp at h
  · simp only [Prod.mk.injEq] at h
    obtain ⟨hr, -⟩ := h
    subst hr
    refine ⟨rfl, ?_⟩
    simp only [List.length_drop, headerSize] at *
    omega
  · simp at h

theorem read_physical_some_size {r r' : Reader} {x : Nat × List Nat}
    (h : read_physical r = (r', .ok (some x))) : r'.size < r.size := by
  have hbs : blockSize = 32768 := rfl
  rw [read_physical] at h
  by_cases h1 : r.avail.length < headerSize
  · rw [if_pos h1] at h
    by_cases h2 : r.eof
    · rw [if_pos h2] at h
      simp at h
    · rw [if_neg h2] at h
      by_cases h3 : (refill r).avail.length < headerSize
      · rw [if_pos h3] at h
        simp at h
      · rw [if_neg h3] at h
        have hp := parseFragment_some h
        have hlen : (refill r).avail.length = min blockSize r.input.length := by
          simp [refill]
        have hinput : (refill r).input.length = r.input.length - blockSize := by
          simp [refill]
        rw [Reader.size, Reader.size, hp.1, hinput]
        have hp2 := hp.2
        rw [hlen] at hp2 h3
        simp only [headerSize] at *
        omega
  · rw [if_neg h1] at h
    have hp := parseFragment_some h
    rw [Reader.size, Reader.size, hp.1]
    have hp2 := hp.2
    simp only [headerSize] at *
    omega

/-- `Reader::read`: the logical-record state machine over physical fragments
(Full=1 emits, First=2 starts a fragmented record, Middle=3 continues it,
Last=4 finishes it; everything else is corruption). -/
def readRecord (r : Reader) (inFrag : Bool) (acc : List Nat) :
    Reader × Except Status (Option (List Nat)) :=
  match h : read_physical r with
  | (r', .error e) => (r', .error e)
  | (r', .ok none) => (r', .ok none)
  | (r', .ok (some (ty, msg))) =>
    if ty = 1 then
      if inFrag then (r', .error .Corruption) else (r', .ok (some msg))
    else if ty = 2 then
      if inFrag then (r', .error .Corruption) else readRecord r' true (acc ++ msg)
    else if ty = 3 then
      if inFrag then readRecord r' true (acc ++ msg) else (r', .error .Corruption)
    else if ty = 4 then
      if inFrag then (r', .ok (some (acc ++ msg))) else (r', .error .Corruption)
    else (r', .error .Corruption)
termination_by r.size
decreasing_by
  all_goals exact read_physical_some_size h

theorem readRecord_some_size_aux (n : Nat) :
    ∀ (r : Reader) (f : Bool) (a : List Nat) (r' : Reader) (rec : List Nat),
    r.size ≤ n → readRecord r f a = (r', .ok (some rec)) → r'.size < r.size := by
  induction n with
  | zero =>
    intro r f a r' rec hn heq
    rw [readRecord] at heq
    split at heq
    next r2 e heq2 => exact absurd heq (by simp)
    next r2 heq2 => exact absurd heq (by simp)
    next r2 ty msg heq2 =>
      have hlt := read_physical_some_size heq2
      split_ifs at heq
      all_goals first
        | (rw [Prod.mk.injEq] at heq
           obtain ⟨hr, -⟩ := heq
           subst hr
           exact hlt)
        | omega
  | succ n ih =>
    intro r f a r' rec hn heq
    rw [readRecord] at heq
    split at heq
    next r2 e heq2 => exact absurd heq (by simp)
    next r2 heq2 => exact absurd heq (by simp)
    next r2 ty msg heq2 =>
      have hlt := read_physical_some_size heq2
      split_ifs at heq
      all_goals first
        | (rw [Prod.mk.injEq] at heq
           obtain ⟨hr, -⟩ := heq
           subst hr
           exact hlt)
        | exact lt_trans (ih _ _ _ _ _ (by omega) heq) hlt

theorem readRecord_some_size {r : Reader} {f : Bool} {a : List Nat} {r' : Reader}
    {rec : List Nat} (h : readRecord r f a = (r', .ok (some rec))) : r'.size < r.size :=
  readRecord_some_size_aux r.size r f a r' rec (le_refl _) h

/-- Read the whole log: collect records until the end-of-log signal,
propagating errors. -/
def readAll (r : Reader) : Except Status (List (List Nat)) :=
  match h : readRecord r false [] with
  | (_, .error e) => .error e
  | (_, .ok none) => .ok []
  | (r', .ok (some rec)) =>
    match readAll r' with
    | .error e => .error e
    | .ok recs => .ok (rec :: recs)
termination_by r.size
decreasing_by
  exact readRecord_some_size h

theorem readRecord_phys_none {r r' : Reader} (f : Bool) (a : List Nat)
    (h : read_physical r = (r', .ok none)) : readRecord r f a = (r', .ok none) := by
  rw [readRecord]
  split
  next r2 e2 heq => rw [h] at heq; simp at heq
  next r2 heq =>
    rw [h, Prod.mk.injEq] at heq
    rw [heq.1]
  next r2 ty msg2 heq => rw [h] at heq; simp at heq

theorem readRecord_full {r r' : Reader} {msg : List Nat} (a : List Nat)
    (h : read_physical r = (r', .ok (some (1, msg)))) :
    readRecord r false a = (r', .ok (some msg)) := by
  rw [readRecord]
  split
  next r2 e2 heq => rw [h] at heq; simp at heq
  next r2 heq => rw [h] at heq; simp at heq
  next r2 ty msg2 heq =>
    rw [h, Prod.mk.injEq] at heq
    obtain ⟨h1, h2⟩ := heq
    simp only [Except.ok.injEq, Option.some.injEq, Prod.mk.injEq] at h2
    obtain ⟨hty, hmsg⟩ := h2
    subst h1
    rw [← hty, ← hmsg]
    simp

theorem readRecord_first {r r' : Reader} {msg : List Nat} (a : List Nat)
    (h : read_physical r = (r', .ok (some (2, msg)))) :
    readRecord r false a = readRecord r' true (a ++ msg) := by
  rw [readRecord]
  split
  next r2 e2 heq => rw [h] at heq; simp at heq
  next r2 heq => rw [h] at heq; simp at heq
  next r2 ty msg2 heq =>
    rw [h, Prod.mk.injEq] at heq
    obtain ⟨h1, h2⟩ := heq
    simp only [Except.ok.injEq, Option.some.injEq, Prod.mk.injEq] at h2
    obtain ⟨hty, hmsg⟩ := h2
    subst h1
    rw [← hty, ← hmsg]
    simp

theorem readRecord_middle {r r' : Reader} {msg : List Nat} (a : List Nat)
    (h : read_physical r = (r', .ok (some (3, msg)))) :
    readRecord r true a = readRecord r' true (a ++ msg) := by
  rw [readRecord]
  split
  next r2 e2 heq => rw [h] at heq; simp at heq
  next r2 heq => rw [h] at heq; simp at heq
  next r2 ty msg2 heq =>
    rw [h, Prod.mk.injEq] at heq
    obtain ⟨h1, h2⟩ := heq
    simp only [Except.ok.injEq, Option.some.injEq, Prod.mk.injEq] at h2
    obtain ⟨hty, hmsg⟩ := h2
    subst h1
    rw [← hty, ← hmsg]
    simp

theorem readRecord_last {r r' : Reader} {msg : List Nat} (a : List Nat)
    (h : read_physical r = (r', .ok (some (4, msg)))) :
    readRecord r true a = (r', .ok (some (a ++ msg))) := by
  rw [readRecord]
  split
  next r2 e2 heq => rw [h] at heq; simp at heq
  next r2 heq => rw [h] at heq; simp at heq
  next r2 ty msg2 heq =>
    rw [h, Prod.mk.injEq] at heq
    obtain ⟨h1, h2⟩ := heq
    simp only [Except.ok.injEq, Option.some.injEq, Prod.mk.injEq] at h2
    obtain ⟨hty, hmsg⟩ := h2
    subst h1
    rw [← hty, ← hmsg]
    simp

theorem readAll_none {r r₂ : Reader} (h : readRecord r false [] = (r₂, .ok none)) :
    readAll r = .ok [] := by
  rw [readAll]
  split
  next a e3 heq => rw [h] at heq; simp at heq
  next a heq => rfl
  next r3 rec heq => rw [h] at heq; simp at heq

theorem readAll_some {r r₂ : Reader} {rec : List Nat}
    (h : readRecord r false [] = (r₂, .ok (some rec))) :
    readAll r =
      match readAll r₂ with
      | .error e => .error e
      | .ok recs => .ok (rec :: recs) := by
  rw [readAll]
  split
  next a e3 heq => rw [h] at heq; simp at heq
  next a heq => rw [h] at heq; simp at heq
  next r3 rec3 heq =>
    rw [h, Prod.mk.injEq] at heq
    obtain ⟨h1, h2⟩ := heq
    simp only [Except.ok.injEq, Option.some.injEq] at h2
    rw [← h1, ← h2]

/-- C3: the log reader does not verify checksums (`// TODO: check checksum`).
A one-record log whose payload byte has been altered (so the stored checksum
`crc32 [10, 20]` no longer matches the payload `[10, 21]`) is read back as a
*successful* record containing the altered payload, instead of failing with
`Corruption` as the specification requires. -/
theorem c3_crc_not_checked :
    crc32 [10, 21] ≠ crc32 [10, 20] ∧
      readAll (Reader.new (le32 (crc32 [10, 20]) ++ [2, 0, 1, 10, 21])) =
        .ok [[10, 21]] := by
  refine ⟨by decide, ?_⟩
  have hphys : read_physical (Reader.new (le32 (crc32 [10, 20]) ++ [2, 0, 1, 10, 21])) =
      (⟨[], [], true⟩, .ok (some (1, [10, 21]))) := by rfl
  have hterm : read_physical (⟨[], [], true⟩ : Reader) = (⟨[], [], true⟩, .ok none) := by
    rfl
  rw [readAll_some (readRecord_full [] hphys),
    readAll_none (readRecord_phys_none false [] hterm)]

/-! ### C1: log framing round-trip (`Writer::append` then `Reader::read`) -/

theorem take_full (l : List Nat) (n : Nat) (h : l.length ≤ n) : l.take n = l := by
  have h1 := List.take_append_drop n l
  rw [List.drop_eq_nil_of_le h, List.append_nil] at h1
  exact h1

theorem append_split (A I F R : List Nat) (h : A ++ I = F ++ R)
    (hlen : F.length ≤ A.length) :
    A = F ++ R.take (A.length - F.length) ∧ I = R.drop (A.length - F.length) := by
  constructor
  · have h1 : A = (A ++ I).take A.length := by rw [List.take_left]
    rw [h, List.take_append_eq_append_take, take_full F _ hlen] at h1
    exact h1
  · have h1 : I = (A ++ I).drop A.length := by rw [List.drop_left]
    rw [h, List.drop_append_eq_append_drop, List.drop_eq_nil_of_le hlen,
      List.nil_append] at h1
    exact h1

/-- Reader/file synchronization invariant at byte position `c`: the unread
bytes held by the reader are exactly the file's suffix from `c`, and the
buffered `avail` chunk always extends to a 32 KiB block boundary — or to the
end of the file once a short read latched `eof`. -/
def GoodAt (file : List Nat) (c : Nat) (r : Reader) : Prop :=
  r.avail ++ r.input = file.drop c ∧
    ((r.avail = [] ∧ r.eof = false ∧ c % blockSize = 0) ∨
     (r.avail.length + c % blockSize = blockSize ∧ r.eof = false) ∨
     (r.input = [] ∧ r.eof = true ∧ r.avail.length + c % blockSize < blockSize))

theorem GoodAt_new (file : List Nat) : GoodAt file 0 (Reader.new file) := by
  refine ⟨?_, Or.inl ⟨rfl, rfl, ?_⟩⟩
  · show ([] : List Nat) ++ file = file.drop 0
    rw [List.nil_append, List.drop_zero]
  · show 0 % blockSize = 0
    exact Nat.zero_mod _

/-- Parsing a buffer that starts with a writer-emitted frame yields exactly
the frame's type and payload and consumes exactly the frame's bytes. -/
theorem parseFragment_frame (r : Reader) (ty : Nat) (payload Y : List Nat)
    (hav : r.avail = writeFrame ty payload ++ Y)
    (hlen : payload.length < 2 ^ 16)
    (hty : ty = 1 ∨ ty = 2 ∨ ty = 3 ∨ ty = 4) :
    parseFragment r = ({r with avail := Y}, .ok (some (ty, payload))) := by
  have h4 : r.avail.getD 4 0 = payload.length % 256 := by
    rw [hav]
    simp [writeFrame, le32, le16, List.getD_cons_succ, List.getD_cons_zero]
  have h5 : r.avail.getD 5 0 = payload.length / 256 % 256 := by
    rw [hav]
    simp [writeFrame, le32, le16, List.getD_cons_succ, List.getD_cons_zero]
  have h6 : r.avail.getD 6 0 = ty := by
    rw [hav]
    simp [writeFrame, le32, le16, List.getD_cons_succ, List.getD_cons_zero]
  have hlc : r.avail.getD 4 0 + 256 * r.avail.getD 5 0 = payload.length := by
    rw [h4, h5]
    omega
  have havlen : r.avail.length = headerSize + payload.length + Y.length := by
    rw [hav, List.length_append, writeFrame_length]
  have hdropAll : r.avail.drop (headerSize + payload.length) = Y := by
    rw [hav]
    exact List.drop_left' (writeFrame_length ty payload)
  have hdrop7 : r.avail.drop headerSize = payload ++ Y := by
    have hw : r.avail =
        (le32 (crc32 payload) ++ le16 payload.length ++ [ty]) ++ (payload ++ Y) := by
      rw [hav]
      simp [writeFrame, List.append_assoc]
    rw [hw]
    exact List.drop_left' (by simp [le32, le16, headerSize])
  have htake : (r.avail.drop headerSize).take payload.length = payload := by
    rw [hdrop7]
    exact List.take_left' rfl
  have hc2 : ¬ (ty = 0 ∧ payload.length = 0) := by
    rcases hty with h | h | h | h <;> omega
  simp only [parseFragment]
  rw [hlc, h6, havlen]
  rw [if_neg (by omega), if_neg hc2, if_pos hty]
  rw [hdropAll, htake]

/-- `read_physical` on a buffer that starts with a frame: no refill needed. -/
theorem read_physical_direct (r : Reader) (ty : Nat) (payload Y : List Nat)
    (hav : r.avail = writeFrame ty payload ++ Y)
    (hlen : payload.length < 2 ^ 16)
    (hty : ty = 1 ∨ ty = 2 ∨ ty = 3 ∨ ty = 4) :
    read_physical r = ({r with avail := Y}, .ok (some (ty, payload))) := by
  have hge : ¬ (r.avail.length < headerSize) := by
    rw [hav, List.length_append, writeFrame_length]
    omega
  rw [read_physical, if_neg hge]
  exact parseFragment_frame r ty payload Y hav hlen hty

/-- `read_physical` when the buffer is exhausted and the input starts with a
frame that fits inside one 32 KiB read: one refill, then a successful parse. -/
theorem read_physical_refill (r : Reader) (ty : Nat) (payload Z : List Nat)
    (hsmall : r.avail.length < headerSize) (heof : r.eof = false)
    (hin : r.input = writeFrame ty payload ++ Z)
    (hfit : headerSize + payload.length ≤ blockSize)
    (hlen : payload.length < 2 ^ 16)
    (hty : ty = 1 ∨ ty = 2 ∨ ty = 3 ∨ ty = 4) :
    read_physical r =
      (⟨r.input.drop blockSize, Z.take (blockSize - (headerSize + payload.length)),
          decide (r.input.length < blockSize)⟩,
        .ok (some (ty, payload))) := by
  have havail : (refill r).avail =
      writeFrame ty payload ++ Z.take (blockSize - (headerSize + payload.length)) := by
    show r.input.take blockSize = _
    rw [hin, List.take_append_eq_append_take,
      take_full _ _ (by rw [writeFrame_length]; exact hfit), writeFrame_length]
  have hbig : ¬ ((refill r).avail.length < headerSize) := by
    rw [havail, List.length_append, writeFrame_length]
    omega
  have heof' : ¬ (r.eof = true) := by
    rw [heof]
    simp
  simp only [read_physical]
  rw [if_pos hsmall, if_neg heof', if_neg hbig]
  rw [parseFragment_frame (refill r) ty payload _ havail hlen hty]
  rfl

/-- `read_physical` at the end of the log signals `Ok(None)`. -/
theorem read_physical_terminal (r : Reader) (hA : r.avail = []) (hI : r.input = []) :
    ∃ r', read_physical r = (r', .ok none) := by
  have hsmall : r.avail.length < headerSize := by
    rw [hA]
    decide
  by_cases hE : r.eof = true
  · exact ⟨r, by rw [read_physical, if_pos hsmall, if_pos hE]⟩
  · refine ⟨refill r, ?_⟩
    have hsmall2 : (refill r).avail.length < headerSize := by
      show (r.input.take blockSize).length < headerSize
      rw [hI]
      decide
    simp only [read_physical]
    rw [if_pos hsmall, if_neg hE, if_pos hsmall2]

/-- One physical read from a block-aligned position: the reader refills, the
frame parses, and the invariant holds again just past the frame. -/
theorem phys_step_aligned (file : List Nat) (c1 ty : Nat) (payload Z : List Nat)
    (r : Reader)
    (hsmall : r.avail.length < headerSize) (heof : r.eof = false)
    (hfile1 : file.drop c1 = r.input)
    (hin : r.input = writeFrame ty payload ++ Z)
    (hc1 : c1 % blockSize = 0)
    (hfit : headerSize + payload.length ≤ blockSize)
    (hlen : payload.length < 2 ^ 16)
    (hty : ty = 1 ∨ ty = 2 ∨ ty = 3 ∨ ty = 4) :
    ∃ r', read_physical r = (r', .ok (some (ty, payload))) ∧
      GoodAt file (c1 + (headerSize + payload.length)) r' := by
  have hbs : blockSize = 32768 := rfl
  have hK : (writeFrame ty payload).length = headerSize + payload.length :=
    writeFrame_length ty payload
  refine ⟨_, read_physical_refill r ty payload Z hsmall heof hin hfit hlen hty, ?_⟩
  constructor
  · show Z.take (blockSize - (headerSize + payload.length)) ++ r.input.drop blockSize =
      file.drop (c1 + (headerSize + payload.length))
    have h1 : r.input.drop blockSize =
        Z.drop (blockSize - (headerSize + payload.length)) := by
      rw [hin]
      conv_lhs =>
        rw [show blockSize =
          (writeFrame ty payload).length + (blockSize - (headerSize + payload.length))
          from by rw [hK]; omega]
      rw [List.drop_append]
    have h3 : (file.drop c1).drop (headerSize + payload.length) = Z := by
      rw [hfile1, hin, ← hK, List.drop_left]
    rw [h1, List.take_append_drop, ← List.drop_drop, h3]
  · have hzlen : r.input.length = headerSize + payload.length + Z.length := by
      rw [hin, List.length_append, writeFrame_length]
    by_cases hend : r.input.length < blockSize
    · refine Or.inr (Or.inr ⟨?_, ?_, ?_⟩)
      · show r.input.drop blockSize = []
        exact List.drop_eq_nil_of_le (by omega)
      · show decide (r.input.length < blockSize) = true
        exact decide_eq_true hend
      · show (Z.take (blockSize - (headerSize + payload.length))).length +
          (c1 + (headerSize + payload.length)) % blockSize < blockSize
        rw [List.length_take]
        rw [hbs] at hc1 hfit hend ⊢
        omega
    · by_cases hfull : headerSize + payload.length = blockSize
      · refine Or.inl ⟨?_, ?_, ?_⟩
        · show Z.take (blockSize - (headerSize + payload.length)) = []
          rw [hfull, Nat.sub_self, List.take_zero]
        · show decide (r.input.length < blockSize) = false
          exact decide_eq_false hend
        · show (c1 + (headerSize + payload.length)) % blockSize = 0
          rw [hfull]
          rw [hbs] at hc1 ⊢
          omega
      · refine Or.inr (Or.inl ⟨?_, ?_⟩)
        · show (Z.take (blockSize - (headerSize + payload.length))).length +
            (c1 + (headerSize + payload.length)) % blockSize = blockSize
          rw [List.length_take]
          rw [hbs] at hc1 hfit hend hfull ⊢
          omega
        · show decide (r.input.length < blockSize) = false
          exact decide_eq_false hend

/-- One physical read when the buffered chunk itself starts with a frame:
direct parse, and the invariant holds again just past the frame. -/
theorem phys_step_direct (file : List Nat) (c ty : Nat) (payload Y : List Nat)
    (r : Reader)
    (hsplit : r.avail ++ r.input = file.drop c)
    (hav : r.avail = writeFrame ty payload ++ Y)
    (hclass : (r.avail.length + c % blockSize = blockSize ∧ r.eof = false) ∨
      (r.input = [] ∧ r.eof = true ∧ r.avail.length + c % blockSize < blockSize))
    (hlen : payload.length < 2 ^ 16)
    (hty : ty = 1 ∨ ty = 2 ∨ ty = 3 ∨ ty = 4) :
    ∃ r', read_physical r = (r', .ok (some (ty, payload))) ∧
      GoodAt file (c + (headerSize + payload.length)) r' := by
  have hbs : blockSize = 32768 := rfl
  have hK : (writeFrame ty payload).length = headerSize + payload.length :=
    writeFrame_length ty payload
  refine ⟨_, read_physical_direct r ty payload Y hav hlen hty, ?_⟩
  constructor
  · show Y ++ r.input = file.drop (c + (headerSize + payload.length))
    rw [← List.drop_drop, ← hsplit, hav, List.append_assoc, ← hK, List.drop_left]
  · have havlen : r.avail.length = headerSize + payload.length + Y.length := by
      rw [hav, List.length_append, hK]
    rcases hclass with ⟨hsum, heof⟩ | ⟨hinp, heof, hlt⟩
    · by_cases hY : Y = []
      · refine Or.inl ⟨hY, heof, ?_⟩
        show (c + (headerSize + payload.length)) % blockSize = 0
        have hY0 : Y.length = 0 := by rw [hY]; rfl
        rw [hbs] at hsum ⊢
        omega
      · refine Or.inr (Or.inl ⟨?_, heof⟩)
        show Y.length + (c + (headerSize + payload.length)) % blockSize = blockSize
        have hY1 : 0 < Y.length := List.length_pos.mpr hY
        rw [hbs] at hsum ⊢
        omega
    · refine Or.inr (Or.inr ⟨hinp, heof, ?_⟩)
      show Y.length + (c + (headerSize + payload.length)) % blockSize < blockSize
      rw [hbs] at hlt ⊢
      omega

/-- Reading one fragment emitted by one iteration of `Writer::append`'s loop:
from any `GoodAt` state whose position is congruent to the writer's block
offset `B`, the reader skips the block-tail padding implicitly (it is part of
the discarded buffer tail or of the refilled block) and returns exactly the
fragment, re-establishing the invariant just past it. -/
theorem phys_step (file : List Nat) (c B ty : Nat) (payload rest : List Nat)
    (r : Reader)
    (hG : GoodAt file c r) (hB : B ≤ blockSize)
    (hmod : c % blockSize = B % blockSize)
    (hfile : file.drop c = padOf B ++ (writeFrame ty payload ++ rest))
    (hlen : payload.length ≤ availOf B)
    (hty : ty = 1 ∨ ty = 2 ∨ ty = 3 ∨ ty = 4) :
    ∃ r', read_physical r = (r', .ok (some (ty, payload))) ∧
      GoodAt file (c + (padOf B).length + (headerSize + payload.length)) r' ∧
      (c + (padOf B).length + (headerSize + payload.length)) % blockSize =
        (offOf B + headerSize + payload.length) % blockSize := by
  obtain ⟨hsplit, hclass⟩ := hG
  have hbs : blockSize = 32768 := rfl
  have hhs : headerSize = 7 := rfl
  have havB : availOf B = blockSize - (offOf B + headerSize) := rfl
  have hlenN : payload.length ≤ blockSize - (offOf B + headerSize) := by
    rw [← havB]
    exact hlen
  have hlen16 : payload.length < 2 ^ 16 := by
    show payload.length < 65536
    have h := hlenN
    rw [hbs] at h
    omega
  rcases hclass with ⟨hA, hE, hc0⟩ | ⟨hsum, hE⟩ | ⟨hI, hE, hlt⟩
  · -- fresh at a block boundary: refill and parse
    have hBor : B = 0 ∨ B = blockSize := by
      rw [hbs] at hB hmod hc0 ⊢
      omega
    have hpadnil : padOf B = [] := by
      rcases hBor with h | h
      · subst h
        rw [padOf, if_neg (by decide)]
      · subst h
        rw [padOf, if_pos (by decide), Nat.sub_self, List.replicate_zero]
    have hoffB : offOf B = 0 := by
      rcases hBor with h | h
      · subst h
        rw [offOf]
        split_ifs <;> rfl
      · subst h
        rw [offOf, if_pos (by decide)]
    rw [hpadnil, List.nil_append] at hfile
    have hfile1 : file.drop c = r.input := by
      rw [← hsplit, hA, List.nil_append]
    have hin : r.input = writeFrame ty payload ++ rest := by
      rw [← hfile1, hfile]
    have hsmall : r.avail.length < headerSize := by
      rw [hA]
      decide
    have hfit : headerSize + payload.length ≤ blockSize := by
      rw [hoffB] at hlenN
      rw [hbs, hhs] at hlenN ⊢
      omega
    obtain ⟨r', hphys, hG'⟩ :=
      phys_step_aligned file c ty payload rest r hsmall hE hfile1 hin hc0 hfit hlen16 hty
    refine ⟨r', hphys, ?_, ?_⟩
    · rw [hpadnil, List.length_nil, Nat.add_zero]
      exact hG'
    · rw [hpadnil, List.length_nil, Nat.add_zero, hoffB]
      rw [hbs] at hc0 ⊢
      omega
  · -- mid-block buffered chunk
    by_cases hBbs : B = blockSize
    · -- the chunk is exactly one whole block: direct parse at its start
      have hpadnil : padOf B = [] := by
        rw [padOf, hBbs, if_pos (by decide), Nat.sub_self, List.replicate_zero]
      have hoffB : offOf B = 0 := by
        rw [offOf, hBbs, if_pos (by decide)]
      have hc0 : c % blockSize = 0 := by
        rw [hmod, hBbs, Nat.mod_self]
      rw [hpadnil, List.nil_append] at hfile
      have hFle : (writeFrame ty payload).length ≤ r.avail.length := by
        rw [writeFrame_length]
        rw [hoffB] at hlenN
        rw [hbs] at hlenN hsum hc0
        rw [hhs] at hlenN ⊢
        omega
      obtain ⟨hAv, hIn⟩ :=
        append_split r.avail r.input (writeFrame ty payload) rest (hsplit.trans hfile) hFle
      obtain ⟨r', hphys, hG'⟩ :=
        phys_step_direct file c ty payload
          (rest.take (r.avail.length - (writeFrame ty payload).length)) r
          hsplit hAv (Or.inl ⟨hsum, hE⟩) hlen16 hty
      refine ⟨r', hphys, ?_, ?_⟩
      · rw [hpadnil, List.length_nil, Nat.add_zero]
        exact hG'
      · rw [hpadnil, List.length_nil, Nat.add_zero, hoffB]
        rw [hbs] at hc0 ⊢
        omega
    · by_cases hpad : blockSize - B < headerSize
      · -- short block tail: the buffered chunk is exactly the padding; refill
        have hBlt : B < blockSize := lt_of_le_of_ne hB hBbs
        have hcB : c % blockSize = B := by
          rw [hmod, Nat.mod_eq_of_lt hBlt]
        have hpadlen : (padOf B).length = blockSize - B := by
          rw [padOf, if_pos hpad, List.length_replicate]
        have hoffB : offOf B = 0 := by
          rw [offOf, if_pos hpad]
        have havlen : r.avail.length = blockSize - B := by
          rw [hbs] at hsum hcB hBlt ⊢
          omega
        obtain ⟨hAv, hIn⟩ :=
          List.append_inj (hsplit.trans hfile) (by rw [havlen, hpadlen])
        have hsmall : r.avail.length < headerSize := by
          rw [havlen]
          exact hpad
        have hfit : headerSize + payload.length ≤ blockSize := by
          rw [hoffB] at hlenN
          rw [hbs, hhs] at hlenN ⊢
          omega
        have hc1 : (c + (padOf B).length) % blockSize = 0 := by
          rw [hpadlen]
          rw [hbs] at hcB hBlt ⊢
          omega
        have hfile1 : file.drop (c + (padOf B).length) = r.input := by
          rw [← List.drop_drop, hfile, List.drop_left]
          exact hIn.symm
        obtain ⟨r', hphys, hG'⟩ :=
          phys_step_aligned file (c + (padOf B).length) ty payload rest r
            hsmall hE hfile1 hIn hc1 hfit hlen16 hty
        refine ⟨r', hphys, hG', ?_⟩
        rw [hoffB, hpadlen]
        rw [hbs] at hcB hBlt ⊢
        omega
      · -- no padding: the frame starts inside the buffered chunk
        have hBlt : B < blockSize := lt_of_le_of_ne hB hBbs
        have hcB : c % blockSize = B := by
          rw [hmod, Nat.mod_eq_of_lt hBlt]
        have hpadnil : padOf B = [] := by
          rw [padOf, if_neg hpad]
        have hoffB : offOf B = B := by
          rw [offOf, if_neg hpad]
        rw [hpadnil, List.nil_append] at hfile
        have havlen : r.avail.length = blockSize - B := by
          rw [hbs] at hsum hcB hBlt ⊢
          omega
        have hFle : (writeFrame ty payload).length ≤ r.avail.length := by
          rw [writeFrame_length, havlen]
          rw [hoffB] at hlenN
          rw [hbs] at hlenN
          rw [hbs, hhs] at hpad
          rw [hhs] at hlenN ⊢
          omega
        obtain ⟨hAv, hIn⟩ :=
          append_split r.avail r.input (writeFrame ty payload) rest (hsplit.trans hfile) hFle
        obtain ⟨r', hphys, hG'⟩ :=
          phys_step_direct file c ty payload
            (rest.take (r.avail.length - (writeFrame ty payload).length)) r
            hsplit hAv (Or.inl ⟨hsum, hE⟩) hlen16 hty
        refine ⟨r', hphys, ?_, ?_⟩
        · rw [hpadnil, List.length_nil, Nat.add_zero]
          exact hG'
        · rw [hpadnil, List.length_nil, Nat.add_zero, hoffB]
          rw [hbs] at hcB ⊢
          omega
  · -- eof latched: the rest of the file is buffered; padding is impossible
    have hsplit' : r.avail = file.drop c := by
      rw [← hsplit, hI, List.append_nil]
    have hkey : ¬ (blockSize - B < headerSize) ∨ B = blockSize := by
      by_contra hcon
      push_neg at hcon
      obtain ⟨h1, h2⟩ := hcon
      have hBlt : B < blockSize := lt_of_le_of_ne hB h2
      have hcB : c % blockSize = B := by
        rw [hmod, Nat.mod_eq_of_lt hBlt]
      have hpadlen : (padOf B).length = blockSize - B := by
        rw [padOf, if_pos h1, List.length_replicate]
      have hAlen : r.avail.length =
          (padOf B).length + ((headerSize + payload.length) + rest.length) := by
        rw [hsplit', hfile, List.length_append, List.length_append, writeFrame_length]
      rw [hpadlen] at hAlen
      rw [hbs] at hAlen hlt hcB hBlt
      omega
    have hpadnil : padOf B = [] := by
      rcases hkey with h | h
      · rw [padOf, if_neg h]
      · rw [padOf, h, if_pos (by decide), Nat.sub_self, List.replicate_zero]
    have hco : c % blockSize = offOf B % blockSize := by
      rcases hkey with h | h
      · rw [offOf, if_neg h]
        exact hmod
      · rw [offOf, if_pos (by rw [h]; decide), Nat.zero_mod, hmod, h, Nat.mod_self]
    rw [hpadnil, List.nil_append] at hfile
    have hAv : r.avail = writeFrame ty payload ++ rest := by
      rw [hsplit', hfile]
    obtain ⟨r', hphys, hG'⟩ :=
      phys_step_direct file c ty payload rest r hsplit hAv
        (Or.inr ⟨hI, hE, hlt⟩) hlen16 hty
    refine ⟨r', hphys, ?_, ?_⟩
    · rw [hpadnil, List.length_nil, Nat.add_zero]
      exact hG'
    · rw [hpadnil, List.length_nil, Nat.add_zero]
      rw [hbs] at hco ⊢
      omega

theorem appendLoop_fits_full {B : Nat} {msg : List Nat} (h : msg.length ≤ availOf B) :
    appendLoop B msg true =
      (padOf B ++ writeFrame 1 msg, offOf B + headerSize + msg.length) := by
  rw [appendLoop, if_pos h]
  rfl

theorem appendLoop_fits_last {B : Nat} {msg : List Nat} (h : msg.length ≤ availOf B) :
    appendLoop B msg false =
      (padOf B ++ writeFrame 4 msg, offOf B + headerSize + msg.length) := by
  rw [appendLoop, if_pos h]
  rfl

theorem appendLoop_split_first {B : Nat} {msg : List Nat}
    (h : ¬ msg.length ≤ availOf B) :
    appendLoop B msg true =
      (padOf B ++ writeFrame 2 (msg.take (availOf B)) ++
          (appendLoop (offOf B + headerSize + availOf B) (msg.drop (availOf B)) false).1,
        (appendLoop (offOf B + headerSize + availOf B) (msg.drop (availOf B)) false).2) := by
  rw [appendLoop, if_neg h]
  rfl

theorem appendLoop_split_mid {B : Nat} {msg : List Nat}
    (h : ¬ msg.length ≤ availOf B) :
    appendLoop B msg false =
      (padOf B ++ writeFrame 3 (msg.take (availOf B)) ++
          (appendLoop (offOf B + headerSize + availOf B) (msg.drop (availOf B)) false).1,
        (appendLoop (offOf B + headerSize + availOf B) (msg.drop (availOf B)) false).2) := by
  rw [appendLoop, if_neg h]
  rfl

/-- Continuation fragments of one `Writer::append` call (the loop with
`begin = false`, i.e. Middle…Last): the reader, already inside a fragmented
record with accumulator `acc`, consumes exactly the loop's output and yields
`acc ++ msg`, landing in a `GoodAt` state aligned with the loop's final block
offset. -/
theorem record_cont (B : Nat) (msg : List Nat) (first : Bool) :
    ∀ (file : List Nat) (c : Nat) (rest : List Nat) (r : Reader) (acc : List Nat),
      GoodAt file c r → B ≤ blockSize → c % blockSize = B % blockSize →
      file.drop c = (appendLoop B msg false).1 ++ rest →
      ∃ r', readRecord r true acc = (r', .ok (some (acc ++ msg))) ∧
        GoodAt file (c + (appendLoop B msg false).1.length) r' ∧
        (c + (appendLoop B msg false).1.length) % blockSize =
          (appendLoop B msg false).2 % blockSize := by
  induction B, msg, first using appendLoop.induct with
  | case1 B msg first hle =>
    intro file c rest r acc hG hB hmod hfile
    simp only [appendLoop_fits_last hle] at hfile ⊢
    rw [List.append_assoc] at hfile
    obtain ⟨r', hphys, hG', hmod'⟩ :=
      phys_step file c B 4 msg rest r ⟨hG.1, hG.2⟩ hB hmod hfile hle
        (Or.inr (Or.inr (Or.inr rfl)))
    have h1 : c + (padOf B ++ writeFrame 4 msg).length =
        c + (padOf B).length + (headerSize + msg.length) := by
      rw [List.length_append, writeFrame_length]
      omega
    refine ⟨r', readRecord_last acc hphys, ?_, ?_⟩
    · rw [h1]
      exact hG'
    · rw [h1]
      exact hmod'
  | case2 B msg first hgt ih =>
    intro file c rest r acc hG hB hmod hfile
    simp only [appendLoop_split_mid hgt] at hfile ⊢
    simp only [List.append_assoc] at hfile
    have hp : (msg.take (availOf B)).length = availOf B := by
      rw [List.length_take]
      omega
    obtain ⟨r₂, hphys, hG₂, hmod₂⟩ :=
      phys_step file c B 3 (msg.take (availOf B))
        ((appendLoop (offOf B + headerSize + availOf B) (msg.drop (availOf B)) false).1 ++
          rest) r
        hG hB hmod hfile (le_of_eq hp) (Or.inr (Or.inr (Or.inl rfl)))
    rw [hp] at hG₂ hmod₂
    have hBS : offOf B + headerSize + availOf B = blockSize := by
      have h := offOf_add_headerSize_le B
      rw [availOf]
      omega
    have hfile₂ : file.drop (c + (padOf B).length + (headerSize + availOf B)) =
        (appendLoop (offOf B + headerSize + availOf B) (msg.drop (availOf B)) false).1 ++
          rest := by
      have h1 : c + (padOf B).length + (headerSize + availOf B) =
          c + ((padOf B).length + (writeFrame 3 (msg.take (availOf B))).length) := by
        rw [writeFrame_length, hp]
        omega
      rw [h1, ← List.drop_drop, hfile, ← List.append_assoc,
        List.drop_left' (by rw [List.length_append])]
    obtain ⟨r', hread, hG', hmod'⟩ :=
      ih file (c + (padOf B).length + (headerSize + availOf B)) rest r₂
        (acc ++ msg.take (availOf B)) hG₂ (le_of_eq hBS) hmod₂ hfile₂
    have h2 : c + (padOf B ++ writeFrame 3 (msg.take (availOf B)) ++
        (appendLoop (offOf B + headerSize + availOf B) (msg.drop (availOf B)) false).1).length =
        c + (padOf B).length + (headerSize + availOf B) +
          (appendLoop (offOf B + headerSize + availOf B) (msg.drop (availOf B)) false).1.length := by
      simp only [List.length_append, writeFrame_length, hp]
      omega
    refine ⟨r', ?_, ?_, ?_⟩
    · rw [readRecord_middle acc hphys, hread, List.append_assoc, List.take_append_drop]
    · rw [h2]
      exact hG'
    · rw [h2]
      exact hmod'

/-- One whole `Writer::append` call (the loop with `begin = true`): the reader,
outside any fragmented record, consumes exactly the appended bytes and yields
the appended payload. -/
theorem record_append (B : Nat) (msg : List Nat) (file : List Nat) (c : Nat)
    (rest : List Nat) (r : Reader)
    (hG : GoodAt file c r) (hB : B ≤ blockSize)
    (hmod : c % blockSize = B % blockSize)
    (hfile : file.drop c = (appendLoop B msg true).1 ++ rest) :
    ∃ r', readRecord r false [] = (r', .ok (some msg)) ∧
      GoodAt file (c + (appendLoop B msg true).1.length) r' ∧
      (c + (appendLoop B msg true).1.length) % blockSize =
        (appendLoop B msg true).2 % blockSize := by
  by_cases hle : msg.length ≤ availOf B
  · simp only [appendLoop_fits_full hle] at hfile ⊢
    rw [List.append_assoc] at hfile
    obtain ⟨r', hphys, hG', hmod'⟩ :=
      phys_step file c B 1 msg rest r hG hB hmod hfile hle (Or.inl rfl)
    have h1 : c + (padOf B ++ writeFrame 1 msg).length =
        c + (padOf B).length + (headerSize + msg.length) := by
      rw [List.length_append, writeFrame_length]
      omega
    refine ⟨r', readRecord_full [] hphys, ?_, ?_⟩
    · rw [h1]
      exact hG'
    · rw [h1]
      exact hmod'
  · simp only [appendLoop_split_first hle] at hfile ⊢
    simp only [List.append_assoc] at hfile
    have hp : (msg.take (availOf B)).length = availOf B := by
      rw [List.length_take]
      omega
    obtain ⟨r₂, hphys, hG₂, hmod₂⟩ :=
      phys_step file c B 2 (msg.take (availOf B))
        ((appendLoop (offOf B + headerSize + availOf B) (msg.drop (availOf B)) false).1 ++
          rest) r
        hG hB hmod hfile (le_of_eq hp) (Or.inr (Or.inl rfl))
    rw [hp] at hG₂ hmod₂
    have hBS : offOf B + headerSize + availOf B = blockSize := by
      have h := offOf_add_headerSize_le B
      rw [availOf]
      omega
    have hfile₂ : file.drop (c + (padOf B).length + (headerSize + availOf B)) =
        (appendLoop (offOf B + headerSize + availOf B) (msg.drop (availOf B)) false).1 ++
          rest := by
      have h1 : c + (padOf B).length + (headerSize + availOf B) =
          c + ((padOf B).length + (writeFrame 2 (msg.take (availOf B))).length) := by
        rw [writeFrame_length, hp]
        omega
      rw [h1, ← List.drop_drop, hfile, ← List.append_assoc,
        List.drop_left' (by rw [List.length_append])]
    obtain ⟨r', hread, hG', hmod'⟩ :=
      record_cont (offOf B + headerSize + availOf B) (msg.drop (availOf B)) false file
        (c + (padOf B).length + (headerSize + availOf B)) rest r₂
        (msg.take (availOf B)) hG₂ (le_of_eq hBS) hmod₂ hfile₂
    have h2 : c + (padOf B ++ writeFrame 2 (msg.take (availOf B)) ++
        (appendLoop (offOf B + headerSize + availOf B) (msg.drop (availOf B)) false).1).length =
        c + (padOf B).length + (headerSize + availOf B) +
          (appendLoop (offOf B + headerSize + availOf B) (msg.drop (availOf B)) false).1.length := by
      simp only [List.length_append, writeFrame_length, hp]
      omega
    refine ⟨r', ?_, ?_, ?_⟩
    · rw [readRecord_first [] hphys, List.nil_append, hread, List.take_append_drop]
    · rw [h2]
      exact hG'
    · rw [h2]
      exact hmod'

/-- The byte stream and final block offset of a sequence of `Writer::append`
calls starting from block offset `B`. -/
def appendAll (B : Nat) : List (List Nat) → List Nat × Nat
  | [] => ([], B)
  | m :: ms =>
    ((appendLoop B m true).1 ++ (appendAll (appendLoop B m true).2 ms).1,
      (appendAll (appendLoop B m true).2 ms).2)

theorem foldl_append_eq (msgs : List (List Nat)) :
    ∀ w : Writer, msgs.foldl Writer.append w =
      ⟨w.file ++ (appendAll w.blockOffset msgs).1, (appendAll w.blockOffset msgs).2⟩ := by
  induction msgs with
  | nil =>
    intro w
    simp only [List.foldl_nil, appendAll, List.append_nil]
  | cons m ms ih =>
    intro w
    rw [List.foldl_cons, ih (w.append m)]
    simp only [Writer.append, appendAll, List.append_assoc]

/-- From any `GoodAt` state aligned with the writer's block offset, reading
the rest of the log returns exactly the remaining appended payloads. -/
theorem readAll_of_goodAt (msgs : List (List Nat)) :
    ∀ (file : List Nat) (c B : Nat) (r : Reader),
      GoodAt file c r → B ≤ blockSize → c % blockSize = B % blockSize →
      file.drop c = (appendAll B msgs).1 →
      readAll r = .ok msgs := by
  induction msgs with
  | nil =>
    intro file c B r hG hB hmod hfile
    obtain ⟨hsplit, -⟩ := hG
    simp only [appendAll] at hfile
    rw [hfile] at hsplit
    have hA := List.append_eq_nil.mp hsplit
    obtain ⟨r', hphys⟩ := read_physical_terminal r hA.1 hA.2
    exact readAll_none (readRecord_phys_none false [] hphys)
  | cons m ms ih =>
    intro file c B r hG hB hmod hfile
    simp only [appendAll] at hfile
    obtain ⟨r', hread, hG', hmod'⟩ :=
      record_append B m file c ((appendAll (appendLoop B m true).2 ms).1) r hG hB hmod hfile
    have hfile' : file.drop (c + (appendLoop B m true).1.length) =
        (appendAll (appendLoop B m true).2 ms).1 := by
      rw [← List.drop_drop, hfile, List.drop_left]
    have hrest := ih file (c + (appendLoop B m true).1.length) (appendLoop B m true).2 r'
      hG' (appendLoop_blockOffset_le B m true) hmod' hfile'
    rw [readAll_some hread, hrest]

/-- C1: the log format round-trips.  Writing any sequence of payloads with
`log::Writer::append` (fragmenting across 32 KiB blocks with Full/First/
Middle/Last record types and zero-padding short block tails) and then reading
the file back with `log::Reader::read` yields exactly the original payload
sequence, with `Ok(None)` signalling a clean end of log. -/
theorem c1_log_framing_roundtrip (msgs : List (List Nat)) :
    readAll (Reader.new (writeAll msgs).file) = .ok msgs := by
  have hw : (writeAll msgs).file = (appendAll 0 msgs).1 := by
    rw [writeAll, foldl_append_eq]
    exact List.nil_append _
  exact readAll_of_goodAt msgs (writeAll msgs).file 0 0 (Reader.new _)
    (GoodAt_new _) (Nat.zero_le _) rfl (by rw [List.drop_zero, hw])

/-! ### C8: block builder / block iterator round-trip (`src/lib.rs`
`BlockBuilder`, `src/table.rs` `Block` and `BlockIterator`) -/

/-- Modelled from the spec: `src/src/table.rs` imports an `Option`-returning
`crate::decode_varint32` (used with `?` inside `decode_entry`), but
`src/src/lib.rs` does not declare `mod table` and its own `decode_varint32`
returns a bare pair, so the decoder `table.rs` actually calls is missing from
the sources.  §4.1 of the specification says varint decoders read base-128
groups until a clear MSB and fail when the input ends or the value would
exceed the target width — exactly the two `none` cases of `decode_varint32`
above, which therefore models the table-side decoder. -/
def decode_varint32_table (buf : List Nat) : Option (Nat × Nat) :=
  decode_varint32 buf

/-- The `while shared < min_length && key[shared] == last_key[shared]` loop of
`BlockBuilder::add`: length of the longest common prefix. -/
def commonPrefixLen : List Nat → List Nat → Nat
  | a :: as, b :: bs => if a = b then commonPrefixLen as bs + 1 else 0
  | _, _ => 0

theorem commonPrefixLen_le_left : ∀ a b : List Nat, commonPrefixLen a b ≤ a.length := by
  intro a
  induction a with
  | nil => intro b; cases b <;> simp [commonPrefixLen]
  | cons x as ih =>
    intro b
    cases b with
    | nil => simp [commonPrefixLen]
    | cons y bs =>
      rw [commonPrefixLen]
      split_ifs
      · have := ih bs
        simp only [List.length_cons]
        omega
      · simp

theorem commonPrefixLen_le_right : ∀ a b : List Nat, commonPrefixLen a b ≤ b.length := by
  intro a
  induction a with
  | nil => intro b; cases b <;> simp [commonPrefixLen]
  | cons x as ih =>
    intro b
    cases b with
    | nil => simp [commonPrefixLen]
    | cons y bs =>
      rw [commonPrefixLen]
      split_ifs
      · have := ih bs
        simp only [List.length_cons]
        omega
      · simp

theorem commonPrefixLen_take : ∀ a b : List Nat,
    b.take (commonPrefixLen a b) = a.take (commonPrefixLen a b) := by
  intro a
  induction a with
  | nil => intro b; cases b <;> simp [commonPrefixLen]
  | cons x as ih =>
    intro b
    cases b with
    | nil => simp [commonPrefixLen]
    | cons y bs =>
      rw [commonPrefixLen]
      split_ifs with hxy
      · simp only [List.take_succ_cons, ih bs, hxy]
      · simp

/-- `BlockBuilder` from `src/lib.rs`. -/
structure BlockBuilder where
  buf : List Nat
  restarts : List Nat
  last_key : List Nat
  counter : Nat
  block_restart_interval : Nat
deriving Repr

/-- `BlockBuilder::new`. -/
def BlockBuilder.new (block_restart_interval : Nat) : BlockBuilder :=
  ⟨[], [0], [], 0, block_restart_interval⟩

/-- `BlockBuilder::add`: prefix-compress against `last_key` within a restart
interval, or start a new restart point with `shared = 0`; emit
`varint32(shared) ‖ varint32(non_shared) ‖ varint32(value_len) ‖ key_delta ‖
value` (the `usize → u32` casts are the `% 2 ^ 32`). -/
def BlockBuilder.add (b : BlockBuilder) (key value : List Nat) : BlockBuilder :=
  let shared :=
    if b.counter < b.block_restart_interval then commonPrefixLen key b.last_key else 0
  let restarts :=
    if b.counter < b.block_restart_interval then b.restarts
    else b.restarts ++ [b.buf.length % 2 ^ 32]
  let counter := if b.counter < b.block_restart_interval then b.counter else 0
  let non_shared := key.length - shared
  ⟨b.buf ++ put_varint32 (shared % 2 ^ 32) ++ put_varint32 (non_shared % 2 ^ 32) ++
      put_varint32 (value.length % 2 ^ 32) ++ key.drop shared ++ value,
    restarts, key, counter + 1, b.block_restart_interval⟩

/-- `BlockBuilder::finish`: append the restart array and its length, both as
fixed 32-bit little-endian words. -/
def BlockBuilder.finish (b : BlockBuilder) : List Nat :=
  b.buf ++ (b.restarts.map le32).flatten ++ le32 (b.restarts.length % 2 ^ 32)

/-- `get_num_restarts` from `src/table.rs` (the `assert!(size >= 4)` is the
panic `none`). -/
def get_num_restarts (data : List Nat) : Option Nat :=
  if data.length < 4 then none
  else some (decode_fixed32 (data.drop (data.length - 4)))

/-- `Block` from `src/table.rs`. -/
structure Block where
  data : List Nat
  restart_offset : Nat
deriving Repr

/-- `Block::new`: outer `none` is the assert panic inside `get_num_restarts`,
inner `none` is the `max_restarts_allowed` rejection. -/
def Block.new (data : List Nat) : Option (Option Block) :=
  match get_num_restarts data with
  | none => none
  | some n =>
    if (data.length - 4) / 4 < n then some none
    else some (some ⟨data, data.length - (1 + n) * 4⟩)

/-- `BlockIterator` from `src/table.rs`. -/
structure BlockIterator where
  block : List Nat
  restart_offset : Nat
  num_restarts : Nat
  current : Nat
  current_restart_index : Nat
  key : List Nat
  value_offset : Nat
  value_size : Nat
deriving Repr

/-- `BlockIterator::new` (always `Some`). -/
def BlockIterator.new (data : List Nat) (restart_offset num_restarts : Nat) :
    Option BlockIterator :=
  some ⟨data, restart_offset, num_restarts, 0, 0, [], 0, 0⟩

/-- `Block::iter` (the `usize → u32` cast of `restart_offset` is the
`% 2 ^ 32`; `.unwrap()` never fires since `BlockIterator::new` is `Some`). -/
def Block.iter (b : Block) : Option BlockIterator :=
  match get_num_restarts b.data with
  | none => none
  | some n => BlockIterator.new b.data (b.restart_offset % 2 ^ 32) n

/-- `decode_entry` from `src/table.rs`: fast path when the three leading
bytes are all single-byte varints, slow path through the varint decoder;
finally the bounds check on `non_shared + value_length`. -/
def decode_entry (data : List Nat) : Option (Nat × Nat × Nat × Nat) :=
  if data.length < 3 then none
  else
    let quad : Option (Nat × Nat × Nat × Nat) :=
      if data.getD 0 0 ||| data.getD 1 0 ||| data.getD 2 0 < 128 then
        some (3, data.getD 0 0, data.getD 1 0, data.getD 2 0)
      else
        match decode_varint32_table data with
        | none => none
        | some (shared, b1) =>
          match decode_varint32_table (data.drop b1) with
          | none => none
          | some (non_shared, b2) =>
            match decode_varint32_table (data.drop (b1 + b2)) with
            | none => none
            | some (value_length, b3) =>
              some (b1 + b2 + b3, shared, non_shared, value_length)
    match quad with
    | none => none
    | some (key_offset, shared, non_shared, value_length) =>
      if data.length - key_offset < non_shared + value_length then none
      else some (key_offset, shared, non_shared, value_length)

/-- The `while` loop advancing `current_restart_index` in
`BlockIterator::next`; it touches no other state.  Fuel `num_restarts` is an
upper bound on its iteration count. -/
def advanceRestart (block : List Nat) (restart_offset num_restarts current idx : Nat) :
    Nat → Nat
  | 0 => idx
  | fuel + 1 =>
    if idx + 1 < num_restarts ∧
        decode_fixed32 (block.drop (restart_offset + (idx + 1) * 4)) ≤ current then
      advanceRestart block restart_offset num_restarts current (idx + 1) fuel
    else idx

/-- `BlockIterator::next` (`Iterator::next`): advance past the previous
entry's value, stop at the restart array, decode one entry, rebuild the key
from the shared prefix of the previous key plus the stored delta. -/
def BlockIterator.next (it : BlockIterator) : Option ((List Nat × List Nat) × BlockIterator) :=
  let current := it.current + it.value_offset + it.value_size
  if it.restart_offset ≤ current then none
  else
    match decode_entry ((it.block.take it.restart_offset).drop current) with
    | none => none
    | some (key_offset, shared, non_shared, value_length) =>
      let key := it.key.take shared ++ List.replicate (shared - it.key.length) 0 ++
        (it.block.drop (current + key_offset)).take non_shared
      let value_offset := key_offset + non_shared
      let value_size := value_length
      some ((key, (it.block.drop (current + value_offset)).take value_size),
        ⟨it.block, it.restart_offset, it.num_restarts, current,
          advanceRestart it.block it.restart_offset it.num_restarts current
            it.current_restart_index it.num_restarts,
          key, value_offset, value_size⟩)

theorem decode_varint32_loop_pos :
    ∀ (fuel : Nat) (buf : List Nat) (value shift offset v n : Nat),
      buf.length - offset ≤ fuel →
      decode_varint32_loop buf value shift offset = some (v, n) → offset < n := by
  intro fuel
  induction fuel with
  | zero =>
    intro buf value shift offset v n hf h
    rw [decode_varint32_loop, if_pos (by omega)] at h
    exact absurd h (by simp)
  | succ fuel ih =>
    intro buf value shift offset v n hf h
    rw [decode_varint32_loop] at h
    by_cases h1 : buf.length ≤ offset
    · rw [if_pos h1] at h
      exact absurd h (by simp)
    · rw [if_neg h1] at h
      by_cases h2 : 32 ≤ shift
      · rw [if_pos h2] at h
        exact absurd h (by simp)
      · rw [if_neg h2] at h
        by_cases h3 : buf.getD offset 0 % 256 / 128 = 1
        · rw [if_pos h3] at h
          have := ih buf _ (shift + 7) (offset + 1) v n (by omega) h
          omega
        · rw [if_neg h3] at h
          simp only [Option.some.injEq, Prod.mk.injEq] at h
          omega

theorem decode_varint32_table_pos {buf : List Nat} {v n : Nat}
    (h : decode_varint32_table buf = some (v, n)) : 1 ≤ n := by
  have := decode_varint32_loop_pos buf.length buf 0 0 0 v n (by omega) h
  omega

theorem decode_entry_key_offset {data : List Nat} {ko s ns vl : Nat}
    (h : decode_entry data = some (ko, s, ns, vl)) : 3 ≤ ko := by
  rw [decode_entry] at h
  by_cases h0 : data.length < 3
  · rw [if_pos h0] at h
    exact absurd h (by simp)
  · rw [if_neg h0] at h
    simp only [] at h
    by_cases h1 : data.getD 0 0 ||| data.getD 1 0 ||| data.getD 2 0 < 128
    · rw [if_pos h1] at h
      simp only [] at h
      split at h
      · exact absurd h (by simp)
      · simp only [Option.some.injEq, Prod.mk.injEq] at h
        omega
    · rw [if_neg h1] at h
      cases hdv1 : decode_varint32_table data with
      | none =>
        rw [hdv1] at h
        simp at h
      | some p1 =>
        obtain ⟨s1, n1⟩ := p1
        rw [hdv1] at h
        simp only [] at h
        cases hdv2 : decode_varint32_table (data.drop n1) with
        | none =>
          rw [hdv2] at h
          simp at h
        | some p2 =>
          obtain ⟨s2, n2⟩ := p2
          rw [hdv2] at h
          simp only [] at h
          cases hdv3 : decode_varint32_table (data.drop (n1 + n2)) with
          | none =>
            rw [hdv3] at h
            simp at h
          | some p3 =>
            obtain ⟨s3, n3⟩ := p3
            rw [hdv3] at h
            simp only [] at h
            split at h
            · exact absurd h (by simp)
            · simp only [Option.some.injEq, Prod.mk.injEq] at h
              have q1 := decode_varint32_table_pos hdv1
              have q2 := decode_varint32_table_pos hdv2
              have q3 := decode_varint32_table_pos hdv3
              omega

theorem BlockIterator.next_shape {it : BlockIterator} {item : List Nat × List Nat}
    {it' : BlockIterator} (h : it.next = some (item, it')) :
    it'.restart_offset = it.restart_offset ∧
      it.current + it.value_offset + it.value_size < it.restart_offset ∧
      it'.current = it.current + it.value_offset + it.value_size ∧
      3 ≤ it'.value_offset := by
  rw [BlockIterator.next] at h
  by_cases hg : it.restart_offset ≤ it.current + it.value_offset + it.value_size
  · rw [if_pos hg] at h
    exact absurd h (by simp)
  · rw [if_neg hg] at h
    split at h
    next heq => exact absurd h (by simp)
    next ko s ns vl heq =>
      have hko := decode_entry_key_offset heq
      simp only [Option.some.injEq, Prod.mk.injEq] at h
      obtain ⟨-, hit⟩ := h
      rw [← hit]
      refine ⟨rfl, by omega, rfl, ?_⟩
      show 3 ≤ ko + ns
      omega

/-- Collect the whole iteration of `BlockIterator` (a `for` loop /
`Iterator::collect`). -/
def iterBlock (it : BlockIterator) : List (List Nat × List Nat) :=
  match h : it.next with
  | none => []
  | some (item, it') => item :: iterBlock it'
termination_by it.restart_offset - (it.current + it.value_offset + it.value_size)
decreasing_by
  have hs := BlockIterator.next_shape h
  omega

theorem iterBlock_none {it : BlockIterator} (h : it.next = none) : iterBlock it = [] := by
  rw [iterBlock]
  split
  next heq => rfl
  next item it' heq =>
    rw [h] at heq
    cases heq

theorem iterBlock_some {it : BlockIterator} {item : List Nat × List Nat}
    {it' : BlockIterator} (h : it.next = some (item, it')) :
    iterBlock it = item :: iterBlock it' := by
  rw [iterBlock]
  split
  next heq =>
    rw [h] at heq
    cases heq
  next a b heq =>
    rw [h, Option.some.injEq, Prod.mk.injEq] at heq
    rw [heq.1, heq.2]

theorem BlockIterator.next_end {it : BlockIterator}
    (h : it.restart_offset ≤ it.current + it.value_offset + it.value_size) :
    it.next = none := by
  rw [BlockIterator.next, if_pos h]

theorem put_varint32_length_pos (v : Nat) : 1 ≤ (put_varint32 v).length := by
  rw [put_varint32]
  split <;> simp

theorem put_varint32_head (v : Nat) (rest : List Nat) :
    (put_varint32 v ++ rest).getD 0 0 = if v < 128 then v else v % 128 + 128 := by
  rw [put_varint32]
  split_ifs <;> simp

theorem decode_varint32_put (v : Nat) (rest : List Nat) (hv : v < 2 ^ 32) :
    decode_varint32 (put_varint32 v ++ rest) = some (v, (put_varint32 v).length) := by
  have h := decode_varint32_loop_put v 0 0 0 (put_varint32 v ++ rest) rest
    (by simp) (by omega) (by simpa using hv) (by simp)
  simpa [decode_varint32] using h

theorem or3_not_lt_128 {a b c : Nat}
    (h : (128 ≤ a ∧ a < 256) ∨ (128 ≤ b ∧ b < 256) ∨ (128 ≤ c ∧ c < 256)) :
    ¬ (a ||| b ||| c < 128) := by
  intro hlt
  have h7 : (a ||| b ||| c).testBit 7 = false := Nat.testBit_lt_two_pow hlt
  rw [Nat.testBit_or, Nat.testBit_or] at h7
  have hbit : ∀ x : Nat, 128 ≤ x → x < 256 → x.testBit 7 = true := by
    intro x h1 h2
    rw [Nat.testBit_to_div_mod]
    have h128 : (2 : Nat) ^ 7 = 128 := by norm_num
    rw [h128]
    have hx : x / 128 = 1 := by omega
    rw [hx]
    rfl
  rcases h with ⟨h1, h2⟩ | ⟨h1, h2⟩ | ⟨h1, h2⟩
  · rw [hbit a h1 h2] at h7
    simp at h7
  · rw [hbit b h1 h2] at h7
    simp at h7
  · rw [hbit c h1 h2] at h7
    simp at h7

theorem or3_lt_128 {a b c : Nat} (ha : a < 128) (hb : b < 128) (hc : c < 128) :
    a ||| b ||| c < 128 := by
  have ha7 : a < 2 ^ 7 := ha
  have hb7 : b < 2 ^ 7 := hb
  have hc7 : c < 2 ^ 7 := hc
  have h := Nat.or_lt_two_pow (Nat.or_lt_two_pow ha7 hb7) hc7
  exact h

/-- Decoding an entry as emitted by `BlockBuilder::add` recovers the three
header values, and the key offset is the total varint length. -/
theorem decode_entry_encoded (shared ns vl : Nat) (delta value REST : List Nat)
    (hs : shared < 2 ^ 32) (hns : ns < 2 ^ 32) (hvl : vl < 2 ^ 32)
    (hd : delta.length = ns) (hv : value.length = vl) :
    decode_entry (put_varint32 shared ++ (put_varint32 ns ++ (put_varint32 vl ++
        (delta ++ (value ++ REST))))) =
      some ((put_varint32 shared).length + (put_varint32 ns).length +
        (put_varint32 vl).length, shared, ns, vl) := by
  have hp1 := put_varint32_length_pos shared
  have hp2 := put_varint32_length_pos ns
  have hp3 := put_varint32_length_pos vl
  have hlen : (put_varint32 shared ++ (put_varint32 ns ++ (put_varint32 vl ++
      (delta ++ (value ++ REST))))).length =
      (put_varint32 shared).length + ((put_varint32 ns).length +
        ((put_varint32 vl).length + (delta.length + (value.length + REST.length)))) := by
    simp [List.length_append]
  have hdec1 : decode_varint32_table (put_varint32 shared ++ (put_varint32 ns ++
      (put_varint32 vl ++ (delta ++ (value ++ REST))))) =
      some (shared, (put_varint32 shared).length) := by
    rw [decode_varint32_table]
    exact decode_varint32_put shared _ hs
  have hdrop1 : (put_varint32 shared ++ (put_varint32 ns ++ (put_varint32 vl ++
      (delta ++ (value ++ REST))))).drop (put_varint32 shared).length =
      put_varint32 ns ++ (put_varint32 vl ++ (delta ++ (value ++ REST))) :=
    List.drop_left _ _
  have hdec2 : decode_varint32_table ((put_varint32 shared ++ (put_varint32 ns ++
      (put_varint32 vl ++ (delta ++ (value ++ REST))))).drop
        (put_varint32 shared).length) =
      some (ns, (put_varint32 ns).length) := by
    rw [hdrop1, decode_varint32_table]
    exact decode_varint32_put ns _ hns
  have hdrop2 : (put_varint32 shared ++ (put_varint32 ns ++ (put_varint32 vl ++
      (delta ++ (value ++ REST))))).drop
        ((put_varint32 shared).length + (put_varint32 ns).length) =
      put_varint32 vl ++ (delta ++ (value ++ REST)) := by
    rw [← List.drop_drop, hdrop1]
    exact List.drop_left _ _
  have hdec3 : decode_varint32_table ((put_varint32 shared ++ (put_varint32 ns ++
      (put_varint32 vl ++ (delta ++ (value ++ REST))))).drop
        ((put_varint32 shared).length + (put_varint32 ns).length)) =
      some (vl, (put_varint32 vl).length) := by
    rw [hdrop2, decode_varint32_table]
    exact decode_varint32_put vl _ hvl
  rw [decode_entry]
  rw [if_neg (by omega)]
  simp only []
  by_cases hfast : shared < 128 ∧ ns < 128 ∧ vl < 128
  · obtain ⟨hf1, hf2, hf3⟩ := hfast
    have hq1 : put_varint32 shared = [shared] := by rw [put_varint32, if_pos hf1]
    have hq2 : put_varint32 ns = [ns] := by rw [put_varint32, if_pos hf2]
    have hq3 : put_varint32 vl = [vl] := by rw [put_varint32, if_pos hf3]
    rw [hq1, hq2, hq3]
    simp only [List.cons_append, List.nil_append, List.getD_cons_zero,
      List.getD_cons_succ, List.length_cons, List.length_append]
    rw [if_pos (or3_lt_128 hf1 hf2 hf3)]
    simp only []
    rw [if_neg (by omega)]
    rfl
  · have hb0 : (put_varint32 shared ++ (put_varint32 ns ++ (put_varint32 vl ++
        (delta ++ (value ++ REST))))).getD 0 0 =
        if shared < 128 then shared else shared % 128 + 128 := put_varint32_head _ _
    have hcond : ¬ ((put_varint32 shared ++ (put_varint32 ns ++ (put_varint32 vl ++
        (delta ++ (value ++ REST))))).getD 0 0 |||
        (put_varint32 shared ++ (put_varint32 ns ++ (put_varint32 vl ++
          (delta ++ (value ++ REST))))).getD 1 0 |||
        (put_varint32 shared ++ (put_varint32 ns ++ (put_varint32 vl ++
          (delta ++ (value ++ REST))))).getD 2 0 < 128) := by
      by_cases hf1 : shared < 128
      · have hq1 : put_varint32 shared = [shared] := by rw [put_varint32, if_pos hf1]
        by_cases hf2 : ns < 128
        · have hq2 : put_varint32 ns = [ns] := by rw [put_varint32, if_pos hf2]
          have hf3 : ¬ vl < 128 := by tauto
          have hb2 : (put_varint32 shared ++ (put_varint32 ns ++ (put_varint32 vl ++
              (delta ++ (value ++ REST))))).getD 2 0 = vl % 128 + 128 := by
            rw [hq1, hq2]
            simp only [List.cons_append, List.nil_append, List.getD_cons_succ]
            rw [put_varint32_head, if_neg hf3]
          rw [hb2]
          exact or3_not_lt_128 (Or.inr (Or.inr ⟨by omega, by omega⟩))
        · have hb1 : (put_varint32 shared ++ (put_varint32 ns ++ (put_varint32 vl ++
              (delta ++ (value ++ REST))))).getD 1 0 = ns % 128 + 128 := by
            rw [hq1]
            simp only [List.cons_append, List.nil_append, List.getD_cons_succ]
            rw [put_varint32_head, if_neg hf2]
          rw [hb1]
          exact or3_not_lt_128 (Or.inr (Or.inl ⟨by omega, by omega⟩))
      · rw [hb0, if_neg hf1]
        exact or3_not_lt_128 (Or.inl ⟨by omega, by omega⟩)
    rw [if_neg hcond]
    rw [hdec1]
    simp only []
    rw [hdec2]
    simp only []
    rw [hdec3]
    simp only []
    rw [if_neg (by omega)]

/-- `BlockIterator::next` on a position holding one builder-emitted entry:
yields the reconstructed key (previous key's shared prefix plus the stored
delta) and the value, advancing exactly past the entry. -/
theorem next_encoded (it : BlockIterator) (shared ns vl : Nat)
    (delta value REST T : List Nat)
    (hslice : (it.block.take it.restart_offset).drop
        (it.current + it.value_offset + it.value_size) =
      put_varint32 shared ++ (put_varint32 ns ++ (put_varint32 vl ++
        (delta ++ (value ++ REST)))))
    (habs : it.block.drop (it.current + it.value_offset + it.value_size) =
      put_varint32 shared ++ (put_varint32 ns ++ (put_varint32 vl ++
        (delta ++ (value ++ T)))))
    (hs : shared < 2 ^ 32) (hns : ns < 2 ^ 32) (hvl : vl < 2 ^ 32)
    (hd : delta.length = ns) (hv : value.length = vl)
    (hsk : shared ≤ it.key.length)
    (hroom : it.current + it.value_offset + it.value_size < it.restart_offset) :
    it.next = some ((it.key.take shared ++ delta, value),
      ⟨it.block, it.restart_offset, it.num_restarts,
        it.current + it.value_offset + it.value_size,
        advanceRestart it.block it.restart_offset it.num_restarts
          (it.current + it.value_offset + it.value_size)
          it.current_restart_index it.num_restarts,
        it.key.take shared ++ delta,
        (put_varint32 shared).length + (put_varint32 ns).length +
          (put_varint32 vl).length + ns, vl⟩) := by
  have hko := decode_entry_encoded shared ns vl delta value REST hs hns hvl hd hv
  have hdel : (it.block.drop (it.current + it.value_offset + it.value_size +
      ((put_varint32 shared).length + (put_varint32 ns).length +
        (put_varint32 vl).length))).take ns = delta := by
    rw [← List.drop_drop, habs, ← List.drop_drop, ← List.drop_drop,
      List.drop_left, List.drop_left, List.drop_left]
    exact List.take_left' hd
  have hval : (it.block.drop (it.current + it.value_offset + it.value_size +
      ((put_varint32 shared).length + (put_varint32 ns).length +
        (put_varint32 vl).length + ns))).take vl = value := by
    rw [← List.drop_drop, habs, ← List.drop_drop, ← List.drop_drop, ← List.drop_drop,
      List.drop_left, List.drop_left, List.drop_left, ← hd, List.drop_left]
    exact List.take_left' hv
  rw [BlockIterator.next]
  rw [if_neg (by omega)]
  rw [hslice, hko]
  simp only []
  rw [Nat.sub_eq_zero_of_le hsk, List.replicate_zero, List.append_nil, hdel, hval]

/-- Fold a sequence of key/value pairs into a `BlockBuilder`
(`block_builder.add(...)` in order). -/
def addAll (b : BlockBuilder) (ps : List (List Nat × List Nat)) : BlockBuilder :=
  ps.foldl (fun b q => b.add q.1 q.2) b

theorem BlockBuilder.add_buf (b : BlockBuilder) (key value : List Nat) :
    ∃ X : List Nat, (b.add key value).buf = b.buf ++ X := by
  by_cases hbr : b.counter < b.block_restart_interval
  · refine ⟨put_varint32 (commonPrefixLen key b.last_key % 2 ^ 32) ++
      (put_varint32 ((key.length - commonPrefixLen key b.last_key) % 2 ^ 32) ++
        (put_varint32 (value.length % 2 ^ 32) ++
          (key.drop (commonPrefixLen key b.last_key) ++ value))), ?_⟩
    simp only [BlockBuilder.add]
    rw [if_pos hbr]
    simp only [List.append_assoc]
  · refine ⟨put_varint32 (0 % 2 ^ 32) ++
      (put_varint32 ((key.length - 0) % 2 ^ 32) ++
        (put_varint32 (value.length % 2 ^ 32) ++ (key.drop 0 ++ value))), ?_⟩
    simp only [BlockBuilder.add]
    rw [if_neg hbr]
    simp only [List.append_assoc]

theorem addAll_buf (ps : List (List Nat × List Nat)) :
    ∀ b : BlockBuilder, ∃ E : List Nat, (addAll b ps).buf = b.buf ++ E := by
  induction ps with
  | nil =>
    intro b
    exact ⟨[], (List.append_nil _).symm⟩
  | cons p ps ih =>
    intro b
    obtain ⟨E, hE⟩ := ih (b.add p.1 p.2)
    obtain ⟨X, hX⟩ := BlockBuilder.add_buf b p.1 p.2
    have hstep : addAll b (p :: ps) = addAll (b.add p.1 p.2) ps := rfl
    refine ⟨X ++ E, ?_⟩
    rw [hstep, hE, hX, List.append_assoc]

/-- The iterator, synchronized with a builder state (same position, same
previous key), yields exactly the remaining added pairs. -/
theorem iterBlock_sim (ps : List (List Nat × List Nat)) :
    ∀ (b : BlockBuilder) (T : List Nat) (it : BlockIterator),
      it.block = (addAll b ps).buf ++ T →
      it.restart_offset = (addAll b ps).buf.length →
      it.current + it.value_offset + it.value_size = b.buf.length →
      it.key = b.last_key →
      (∀ q ∈ ps, q.1.length < 2 ^ 32 ∧ q.2.length < 2 ^ 32) →
      iterBlock it = ps := by
  induction ps with
  | nil =>
    intro b T it hblk hro hcur hkey hkv
    apply iterBlock_none
    apply BlockIterator.next_end
    rw [hcur, hro]
    exact Nat.le_of_eq rfl
  | cons p ps ih =>
    intro b T it hblk hro hcur hkey hkv
    obtain ⟨k, v⟩ := p
    have hkvh : k.length < 2 ^ 32 ∧ v.length < 2 ^ 32 :=
      hkv (k, v) (List.mem_cons_self _ _)
    have hstep : addAll b ((k, v) :: ps) = addAll (b.add k v) ps := rfl
    rw [hstep] at hblk hro
    obtain ⟨E, hE⟩ := addAll_buf ps (b.add k v)
    obtain ⟨s, hsle, hskey, hstake, hadd⟩ :
        ∃ s, s ≤ k.length ∧ s ≤ b.last_key.length ∧ b.last_key.take s = k.take s ∧
          (b.add k v).buf = b.buf ++ (put_varint32 s ++ (put_varint32 (k.length - s) ++
            (put_varint32 v.length ++ (k.drop s ++ v)))) := by
      by_cases hbr : b.counter < b.block_restart_interval
      · refine ⟨commonPrefixLen k b.last_key, commonPrefixLen_le_left k b.last_key,
          commonPrefixLen_le_right k b.last_key, commonPrefixLen_take k b.last_key, ?_⟩
        simp only [BlockBuilder.add]
        rw [if_pos hbr]
        rw [Nat.mod_eq_of_lt (lt_of_le_of_lt (commonPrefixLen_le_left k b.last_key) hkvh.1),
          Nat.mod_eq_of_lt (lt_of_le_of_lt (Nat.sub_le _ _) hkvh.1),
          Nat.mod_eq_of_lt hkvh.2]
        simp only [List.append_assoc]
      · refine ⟨0, Nat.zero_le _, Nat.zero_le _, by simp, ?_⟩
        simp only [BlockBuilder.add]
        rw [if_neg hbr]
        rw [Nat.zero_mod, Nat.mod_eq_of_lt (lt_of_le_of_lt (Nat.sub_le _ _) hkvh.1),
          Nat.mod_eq_of_lt hkvh.2]
        simp only [List.append_assoc]
    have hblk2 : it.block = b.buf ++ (put_varint32 s ++ (put_varint32 (k.length - s) ++
        (put_varint32 v.length ++ (k.drop s ++ (v ++ (E ++ T)))))) := by
      rw [hblk, hE, hadd]
      simp only [List.append_assoc]
    have hbuf2 : (addAll (b.add k v) ps).buf =
        b.buf ++ (put_varint32 s ++ (put_varint32 (k.length - s) ++
          (put_varint32 v.length ++ (k.drop s ++ (v ++ E))))) := by
      rw [hE, hadd]
      simp only [List.append_assoc]
    have habs : it.block.drop (it.current + it.value_offset + it.value_size) =
        put_varint32 s ++ (put_varint32 (k.length - s) ++
          (put_varint32 v.length ++ (k.drop s ++ (v ++ (E ++ T))))) := by
      rw [hcur, hblk2, List.drop_left]
    have htake : it.block.take it.restart_offset = (addAll (b.add k v) ps).buf := by
      rw [hblk, hro, List.take_left]
    have hslice : (it.block.take it.restart_offset).drop
        (it.current + it.value_offset + it.value_size) =
        put_varint32 s ++ (put_varint32 (k.length - s) ++
          (put_varint32 v.length ++ (k.drop s ++ (v ++ E)))) := by
      rw [htake, hbuf2, hcur, List.drop_left]
    have hd0 : (k.drop s).length = k.length - s := by
      rw [List.length_drop]
    have hroom : it.current + it.value_offset + it.value_size < it.restart_offset := by
      rw [hcur, hro, hbuf2, List.length_append, List.length_append]
      have hp1 := put_varint32_length_pos s
      omega
    have hsB : s < 2 ^ 32 := lt_of_le_of_lt hsle hkvh.1
    have hnsB : k.length - s < 2 ^ 32 := lt_of_le_of_lt (Nat.sub_le _ _) hkvh.1
    have hnext := next_encoded it s (k.length - s) v.length (k.drop s) v E (E ++ T)
      hslice habs hsB hnsB hkvh.2 hd0 rfl (by rw [hkey]; exact hskey) hroom
    rw [iterBlock_some hnext]
    have hkeyeq : it.key.take s ++ k.drop s = k := by
      rw [hkey, hstake, List.take_append_drop]
    rw [hkeyeq]
    congr 1
    apply ih (b.add k v) T
    · exact hblk
    · exact hro
    · show it.current + it.value_offset + it.value_size +
        ((put_varint32 s).length + (put_varint32 (k.length - s)).length +
          (put_varint32 v.length).length + (k.length - s)) + v.length =
        (b.add k v).buf.length
      rw [hcur, hadd]
      simp only [List.length_append]
      omega
    · rfl
    · intro q hq
      exact hkv q (List.mem_cons_of_mem _ hq)

theorem flatten_le32_length (rs : List Nat) :
    ((rs.map le32).flatten).length = 4 * rs.length := by
  induction rs with
  | nil => rfl
  | cons r rs ih =>
    have h4 : (le32 r).length = 4 := rfl
    simp only [List.map_cons, List.flatten_cons, List.length_append, ih,
      List.length_cons, h4]
    omega

theorem BlockBuilder.add_restarts (b : BlockBuilder) (key value : List Nat) :
    b.restarts.length ≤ (b.add key value).restarts.length := by
  by_cases hbr : b.counter < b.block_restart_interval
  · simp only [BlockBuilder.add]
    rw [if_pos hbr]
  · simp only [BlockBuilder.add]
    rw [if_neg hbr, List.length_append]
    omega

theorem addAll_restarts_pos (ps : List (List Nat × List Nat)) :
    ∀ b : BlockBuilder, 1 ≤ b.restarts.length → 1 ≤ (addAll b ps).restarts.length := by
  induction ps with
  | nil =>
    intro b hb
    exact hb
  | cons p ps ih =>
    intro b hb
    exact ih (b.add p.1 p.2) (le_trans hb (BlockBuilder.add_restarts b p.1 p.2))

/-- Opening a finished block: the decoded restart count is the builder's, the
checks pass, and the first iterator state points at the entry region. -/
theorem block_open (bb : BlockBuilder) (hR1 : 1 ≤ bb.restarts.length)
    (hlen : bb.finish.length < 2 ^ 32) :
    ∃ blk : Block, Block.new bb.finish = some (some blk) ∧
      blk.iter = some ⟨bb.finish, bb.buf.length, bb.restarts.length, 0, 0, [], 0, 0⟩ := by
  have hlen' : bb.finish.length < 4294967296 := hlen
  have hflat : ((bb.restarts.map le32).flatten).length = 4 * bb.restarts.length :=
    flatten_le32_length _
  have h4 : (le32 (bb.restarts.length % 2 ^ 32)).length = 4 := rfl
  have hfin : bb.finish = bb.buf ++ ((bb.restarts.map le32).flatten ++
      le32 (bb.restarts.length % 2 ^ 32)) := by
    rw [BlockBuilder.finish, List.append_assoc]
  have hfinlen : bb.finish.length = bb.buf.length + (4 * bb.restarts.length + 4) := by
    rw [hfin, List.length_append, List.length_append, hflat, h4]
  have hR32 : bb.restarts.length < 2 ^ 32 := by
    show bb.restarts.length < 4294967296
    omega
  have hmodR : bb.restarts.length % 2 ^ 32 = bb.restarts.length := Nat.mod_eq_of_lt hR32
  have hbufB : bb.buf.length < 2 ^ 32 := by
    show bb.buf.length < 4294967296
    omega
  have hnum : get_num_restarts bb.finish = some bb.restarts.length := by
    rw [get_num_restarts]
    rw [if_neg (by omega)]
    have hidx : bb.finish.length - 4 = (bb.buf ++ (bb.restarts.map le32).flatten).length := by
      rw [hfinlen, List.length_append, hflat]
      omega
    have hfin2 : bb.finish = (bb.buf ++ (bb.restarts.map le32).flatten) ++
        le32 (bb.restarts.length % 2 ^ 32) := by
      rw [BlockBuilder.finish]
    have hdrop : bb.finish.drop (bb.finish.length - 4) =
        le32 (bb.restarts.length % 2 ^ 32) := by
      rw [hidx]
      conv_lhs => rw [hfin2]
      rw [List.drop_left]
    rw [hdrop]
    rw [show le32 (bb.restarts.length % 2 ^ 32) =
      le32 (bb.restarts.length % 2 ^ 32) ++ [] from (List.append_nil _).symm]
    rw [decode_fixed32_le32 _ (Nat.mod_lt _ (by norm_num)), hmodR]
  have hoff : bb.finish.length - (1 + bb.restarts.length) * 4 = bb.buf.length := by
    rw [hfinlen]
    omega
  refine ⟨⟨bb.finish, bb.finish.length - (1 + bb.restarts.length) * 4⟩, ?_, ?_⟩
  · rw [Block.new, hnum]
    simp only []
    rw [if_neg (by omega)]
  · rw [Block.iter]
    simp only []
    rw [hnum]
    simp only []
    rw [BlockIterator.new, hoff, Nat.mod_eq_of_lt hbufB]

/-- Build one block from a sequence of key/value pairs at the given restart
interval (`BlockBuilder::new`, repeated `add`, then `finish`). -/
def buildBlock (interval : Nat) (pairs : List (List Nat × List Nat)) : List Nat :=
  (addAll (BlockBuilder.new interval) pairs).finish

/-- C8: block builder/iterator round-trip.  For every sorted key/value
sequence and restart interval ≥ 1 (and within the `u32` ranges the format can
represent), adding the pairs in order to a `BlockBuilder`, finishing the
block, opening it with `Block::new` and iterating returns exactly the input
pairs, byte-identical and in order. -/
theorem c8_block_roundtrip (interval : Nat) (pairs : List (List Nat × List Nat))
    (hI : 1 ≤ interval)
    (hsorted : pairs.Chain' (fun a b => a.1 ≤ b.1))
    (hkv : ∀ q ∈ pairs, q.1.length < 2 ^ 32 ∧ q.2.length < 2 ^ 32)
    (hblk : (buildBlock interval pairs).length < 2 ^ 32) :
    ∃ (blk : Block) (it : BlockIterator),
      Block.new (buildBlock interval pairs) = some (some blk) ∧
      blk.iter = some it ∧ iterBlock it = pairs := by
  have hR1 : 1 ≤ (addAll (BlockBuilder.new interval) pairs).restarts.length :=
    addAll_restarts_pos pairs (BlockBuilder.new interval) (Nat.le_refl 1)
  have hlen : (addAll (BlockBuilder.new interval) pairs).finish.length < 2 ^ 32 := hblk
  obtain ⟨blk, hnew, hiter⟩ := block_open (addAll (BlockBuilder.new interval) pairs) hR1 hlen
  refine ⟨blk, ⟨(addAll (BlockBuilder.new interval) pairs).finish,
    (addAll (BlockBuilder.new interval) pairs).buf.length,
    (addAll (BlockBuilder.new interval) pairs).restarts.length, 0, 0, [], 0, 0⟩,
    hnew, hiter, ?_⟩
  apply iterBlock_sim pairs (BlockBuilder.new interval)
    (((addAll (BlockBuilder.new interval) pairs).restarts.map le32).flatten ++
      le32 ((addAll (BlockBuilder.new interval) pairs).restarts.length % 2 ^ 32))
  · show (addAll (BlockBuilder.new interval) pairs).finish = _
    rw [BlockBuilder.finish, List.append_assoc]
  · rfl
  · rfl
  · rfl
  · exact hkv

/-- Witness: a concrete sorted two-pair block at restart interval 1
round-trips. -/
theorem c8_block_roundtrip_witness :
    (1 ≤ 1 ∧
      ([([1], [2]), ([1, 3], [4])] : List (List Nat × List Nat)).Chain'
        (fun a b => a.1 ≤ b.1) ∧
      (∀ q ∈ ([([1], [2]), ([1, 3], [4])] : List (List Nat × List Nat)),
        q.1.length < 2 ^ 32 ∧ q.2.length < 2 ^ 32) ∧
      (buildBlock 1 [([1], [2]), ([1, 3], [4])]).length < 2 ^ 32) ∧
    ∃ (blk : Block) (it : BlockIterator),
      Block.new (buildBlock 1 [([1], [2]), ([1, 3], [4])]) = some (some blk) ∧
      blk.iter = some it ∧ iterBlock it = [([1], [2]), ([1, 3], [4])] := by
  have h1 : 1 ≤ 1 := Nat.le_refl 1
  have h2 : ([([1], [2]), ([1, 3], [4])] : List (List Nat × List Nat)).Chain'
      (fun a b => a.1 ≤ b.1) := by
    refine List.chain'_cons.mpr ⟨?_, List.chain'_singleton _⟩
    show ([1] : List Nat) ≤ [1, 3]
    decide
  have h3 : ∀ q ∈ ([([1], [2]), ([1, 3], [4])] : List (List Nat × List Nat)),
      q.1.length < 2 ^ 32 ∧ q.2.length < 2 ^ 32 := by decide
  have h4 : (buildBlock 1 [([1], [2]), ([1, 3], [4])]).length < 2 ^ 32 := by
    have hpv0 : put_varint32 0 = [0] := by rw [put_varint32, if_pos (by norm_num)]
    have hpv1 : put_varint32 1 = [1] := by rw [put_varint32, if_pos (by norm_num)]
    have hpv2 : put_varint32 2 = [2] := by rw [put_varint32, if_pos (by norm_num)]
    simp [buildBlock, addAll, BlockBuilder.new, BlockBuilder.add, BlockBuilder.finish,
      commonPrefixLen, hpv0, hpv1, hpv2, le32]
  exact ⟨⟨h1, h2, h3, h4⟩, c8_block_roundtrip 1 _ h1 h2 h3 h4⟩

end Espikey
